import Mathlib

/-!
Verification of the snapshot/restore engine of `playwright-auth`
(`src/lib.ts`: `createAuth` and the retrying `loadAuth`).

The development shallowly embeds:

* the JSON value universe that flows through `JSON.stringify` / `JSON.parse`
  (`Json`, `stringify`, `parse`) — numbers are modelled as integers (the
  values the repository round-trips are integral; IEEE floats are out of
  scope), strings are lists of characters, and escaping covers the quote and
  backslash characters (the characters `JSON.stringify` escapes that occur
  in re-encoded dumps);
* the IndexedDB object-store semantics the engine relies on (`ObjStore`,
  `putRecord` with key paths, auto-increment key generators and key
  injection);
* `createAuth`'s capture loop (`createAuthIdbs`) and the retrying
  `loadAuth`'s in-page restore (`restoreDb`, `restoreAll`) together with its
  navigation/retry loop (`loadGo`), with environmental outcomes (open
  errors, blocked opens, transaction failures) supplied by explicit oracles.
-/

namespace PlaywrightAuth

/-! ## JSON values

`Json` is the universe of structured-clone/JSON values the engine moves
around. JS objects are association lists of fields. -/

inductive Json where
  | null
  | bool (b : Bool)
  | num (n : Int)
  | str (s : List Char)
  | arr (xs : List Json)
  | obj (fs : List (List Char × Json))
deriving Repr

mutual
def Json.beq : Json → Json → Bool
  | .null, .null => true
  | .bool a, .bool b => a == b
  | .num a, .num b => a == b
  | .str a, .str b => a == b
  | .arr a, .arr b => Json.beqList a b
  | .obj a, .obj b => Json.beqFields a b
  | _, _ => false
def Json.beqList : List Json → List Json → Bool
  | [], [] => true
  | a :: as, b :: bs => Json.beq a b && Json.beqList as bs
  | _, _ => false
def Json.beqFields : List (List Char × Json) → List (List Char × Json) → Bool
  | [], [] => true
  | (k, v) :: as, (l, w) :: bs => k == l && Json.beq v w && Json.beqFields as bs
  | _, _ => false
end

mutual
theorem Json.beq_iff : ∀ a b : Json, Json.beq a b = true ↔ a = b
  | .null, b => by cases b <;> simp [Json.beq]
  | .bool x, b => by cases b <;> simp [Json.beq]
  | .num x, b => by cases b <;> simp [Json.beq]
  | .str x, b => by cases b <;> simp [Json.beq]
  | .arr xs, b => by
      cases b <;> simp [Json.beq]
      exact Json.beqList_iff xs _
  | .obj fs, b => by
      cases b <;> simp [Json.beq]
      exact Json.beqFields_iff fs _
theorem Json.beqList_iff : ∀ a b : List Json, Json.beqList a b = true ↔ a = b
  | [], b => by cases b <;> simp [Json.beqList]
  | x :: xs, b => by
      cases b with
      | nil => simp [Json.beqList]
      | cons y ys =>
          simp [Json.beqList, Json.beq_iff x y, Json.beqList_iff xs ys]
theorem Json.beqFields_iff :
    ∀ a b : List (List Char × Json), Json.beqFields a b = true ↔ a = b
  | [], b => by cases b <;> simp [Json.beqFields]
  | (k, v) :: xs, b => by
      cases b with
      | nil => simp [Json.beqFields]
      | cons y ys =>
          obtain ⟨l, w⟩ := y
          simp [Json.beqFields, Json.beq_iff v w, Json.beqFields_iff xs ys,
            and_assoc]
end

instance : DecidableEq Json := fun a b =>
  decidable_of_iff (Json.beq a b = true) (Json.beq_iff a b)

/-! ## Serialisation: the model of `JSON.stringify`

`JSON.stringify` emits no whitespace; strings are quoted with `"` and `\`
escaped (the repository's dumps contain no control characters, whose
`\u....` escapes are therefore not modelled); numbers print in decimal. -/

def digitChar (d : Nat) : Char := Char.ofNat (48 + d)

/-- Decimal digits of `n`, most significant first, in front of `acc`.
Fuelled so that the definition is structural and evaluates in the kernel;
`n` itself always suffices as fuel since `n / 10` shrinks fast. -/
def natCharsAux : Nat → Nat → List Char → List Char
  | 0, _, acc => acc
  | fuel + 1, n, acc =>
      if n < 10 then digitChar n :: acc
      else natCharsAux fuel (n / 10) (digitChar (n % 10) :: acc)

def natChars (n : Nat) : List Char := natCharsAux (n + 1) n []

/-- Decimal characters of an integer: JS prints a leading minus for
negative numbers, then the digits. -/
def intChars (i : Int) : List Char :=
  if i < 0 then '-' :: natChars i.natAbs else natChars i.natAbs

/-- JSON string escaping of a single character: quote and backslash get a
backslash; everything else passes through. -/
def escapeChar (c : Char) : List Char :=
  if c = '"' ∨ c = '\\' then [ '\\', c] else [c]

def escape : List Char → List Char
  | [] => []
  | c :: cs => escapeChar c ++ escape cs

/-- A JSON string literal: quote, escaped body, quote. -/
def strLit (s : List Char) : List Char := '"' :: (escape s ++ [ '"'])

mutual
def stringify : Json → List Char
  | .num n => intChars n
  | .str s => strLit s
  | .bool false => [ 'f', 'a', 'l', 's', 'e']
  | .bool true => [ 't', 'r', 'u', 'e']
  | .null => [ 'n', 'u', 'l', 'l']
  | .arr xs => '[' :: (stringifyElems xs ++ [ ']'])
  | .obj fs => '{' :: (stringifyFields fs ++ [ '}'])
def stringifyElems : List Json → List Char
  | [] => []
  | [x] => stringify x
  | x :: y :: xs => stringify x ++ ',' :: stringifyElems (y :: xs)
def stringifyFields : List (List Char × Json) → List Char
  | [] => []
  | [(k, v)] => strLit k ++ ':' :: stringify v
  | (k, v) :: f :: fs => strLit k ++ ':' :: stringify v ++ ',' :: stringifyFields (f :: fs)
end

/-! ## Parsing: the model of `JSON.parse`

A strict recursive-descent parser over the same whitespace-free grammar
`stringify` emits (`JSON.parse` on `JSON.stringify` output never sees
whitespace). Structural on a fuel argument, so it evaluates in the kernel;
`parse` supplies one more unit of fuel than the input length, which the
round-trip proof shows is always enough. -/

/-- Parse the body of a string literal after the opening quote, undoing
`escape`; rejects a stray quoteless end or an unknown escape. -/
def parseStr : List Char → Option (List Char × List Char)
  | [] => none
  | c :: rest =>
    if c = '"' then some ([], rest)
    else if c = '\\' then
      match rest with
      | [] => none
      | e :: rest2 =>
          if e = '"' ∨ e = '\\' then
            (parseStr rest2).map (fun p => (e :: p.1, p.2))
          else none
    else (parseStr rest).map (fun p => (c :: p.1, p.2))

/-- Consume a maximal run of decimal digits, accumulating their value. -/
def parseDigitsAux (a : Nat) : List Char → Nat × List Char
  | [] => (a, [])
  | c :: rest =>
      if c.isDigit then parseDigitsAux (a * 10 + (c.toNat - 48)) rest
      else (a, c :: rest)

/-- Parse an optionally negated run of digits into an integer. -/
def parseNum : List Char → Option (Int × List Char)
  | [] => none
  | c :: cs =>
    if c = '-' then
      match cs with
      | [] => none
      | d :: cs2 =>
          if d.isDigit then
            let p := parseDigitsAux (d.toNat - 48) cs2
            some (-(p.1 : Int), p.2)
          else none
    else if c.isDigit then
      let p := parseDigitsAux (c.toNat - 48) cs
      some ((p.1 : Int), p.2)
    else none

mutual
def parseVal : Nat → List Char → Option (Json × List Char)
  | 0, _ => none
  | _ + 1, [] => none
  | fuel + 1, c :: cs =>
    if c = '-' ∨ c.isDigit then
      (parseNum (c :: cs)).map (fun p => (Json.num p.1, p.2))
    else if c = '"' then
      (parseStr cs).map (fun p => (Json.str p.1, p.2))
    else if c = '[' then
      match cs with
      | [] => none
      | d :: ds =>
          if d = ']' then some (Json.arr [], ds)
          else (parseElems fuel (d :: ds)).map (fun p => (Json.arr p.1, p.2))
    else if c = '{' then
      match cs with
      | [] => none
      | d :: ds =>
          if d = '}' then some (Json.obj [], ds)
          else (parseFields fuel (d :: ds)).map (fun p => (Json.obj p.1, p.2))
    else
      match c :: cs with
      | 'n' :: 'u' :: 'l' :: 'l' :: rest => some (Json.null, rest)
      | 't' :: 'r' :: 'u' :: 'e' :: rest => some (Json.bool true, rest)
      | 'f' :: 'a' :: 'l' :: 's' :: 'e' :: rest => some (Json.bool false, rest)
      | _ => none
def parseElems : Nat → List Char → Option (List Json × List Char)
  | 0, _ => none
  | fuel + 1, cs =>
    match parseVal fuel cs with
    | none => none
    | some (v, rest) =>
        match rest with
        | ',' :: rest2 => (parseElems fuel rest2).map (fun p => (v :: p.1, p.2))
        | ']' :: rest2 => some ([v], rest2)
        | _ => none
def parseFields : Nat → List Char → Option (List (List Char × Json) × List Char)
  | 0, _ => none
  | fuel + 1, cs =>
    match cs with
    | [] => none
    | c :: cs2 =>
        if c = '"' then
          match parseStr cs2 with
          | none => none
          | some (k, rest1) =>
              match rest1 with
              | ':' :: rest2 =>
                  match parseVal fuel rest2 with
                  | none => none
                  | some (v, rest3) =>
                      match rest3 with
                      | ',' :: rest4 =>
                          (parseFields fuel rest4).map (fun p => ((k, v) :: p.1, p.2))
                      | '}' :: rest4 => some ([(k, v)], rest4)
                      | _ => none
              | _ => none
        else none
end

/-- The model of `JSON.parse`: parse a complete document, requiring the
whole input to be consumed. -/
def parse (cs : List Char) : Option Json :=
  match parseVal (cs.length + 1) cs with
  | some (v, []) => some v
  | _ => none

/-! ## The codec round-trip

`parse (stringify v) = some v` for every value: the engine's dumps decode
to exactly what was captured. Digits first, then strings, then the mutual
structural cases by induction on the parser's fuel. -/

/-- True when the input cannot extend a digit run: empty, or headed by a
non-digit. Every JSON delimiter qualifies. -/
def noDigitHead : List Char → Bool
  | [] => true
  | c :: _ => !c.isDigit

theorem digitChar_isDigit {d : Nat} (h : d < 10) : (digitChar d).isDigit = true := by
  interval_cases d <;> decide

theorem digitChar_toNat {d : Nat} (h : d < 10) : (digitChar d).toNat - 48 = d := by
  interval_cases d <;> decide

theorem isDigit_ne {c : Char} (h : c.isDigit = true) :
    c ≠ '-' ∧ c ≠ 'n' ∧ c ≠ 't' ∧ c ≠ 'f' ∧ c ≠ '"' ∧ c ≠ '[' ∧ c ≠ '{' ∧
      c ≠ ']' ∧ c ≠ '}' ∧ c ≠ ',' ∧ c ≠ ':' := by
  refine ⟨?_, ?_, ?_, ?_, ?_, ?_, ?_, ?_, ?_, ?_, ?_⟩ <;>
    (intro hc; subst hc; exact absurd h (by decide))

theorem natCharsAux_append :
    ∀ (fuel n : Nat) (acc : List Char), n < fuel →
      natCharsAux fuel n acc = natCharsAux fuel n [] ++ acc := by
  intro fuel
  induction fuel with
  | zero => intro n acc h; omega
  | succ f ih =>
      intro n acc h
      by_cases h10 : n < 10
      · simp [natCharsAux, h10]
      · have hdiv : n / 10 < f := by
          have h2 : n / 10 < n := Nat.div_lt_self (by omega) (by omega)
          omega
        simp only [natCharsAux, if_neg h10]
        rw [ih (n / 10) (digitChar (n % 10) :: acc) hdiv,
          ih (n / 10) [digitChar (n % 10)] hdiv]
        simp

theorem natCharsAux_fuel :
    ∀ (f g n : Nat) (acc : List Char), n < f → n < g →
      natCharsAux f n acc = natCharsAux g n acc := by
  intro f
  induction f with
  | zero => intro g n acc h; omega
  | succ f ih =>
      intro g n acc hf hg
      cases g with
      | zero => omega
      | succ g =>
          by_cases h10 : n < 10
          · simp [natCharsAux, h10]
          · have hdiv : n / 10 < n := Nat.div_lt_self (by omega) (by omega)
            simp only [natCharsAux, if_neg h10]
            exact ih g (n / 10) _ (by omega) (by omega)

/-- The recurrence `natChars` satisfies, with the fuel hidden. -/
theorem natChars_eq (n : Nat) :
    natChars n =
      if n < 10 then [digitChar n] else natChars (n / 10) ++ [digitChar (n % 10)] := by
  by_cases h10 : n < 10
  · simp [natChars, natCharsAux, h10]
  · have hdiv : n / 10 < n := Nat.div_lt_self (by omega) (by omega)
    rw [if_neg h10]
    show natCharsAux (n + 1) n [] = _
    rw [show natCharsAux (n + 1) n [] = natCharsAux n (n / 10) [digitChar (n % 10)] from by
      simp only [natCharsAux, if_neg h10]]
    rw [natCharsAux_fuel n (n / 10 + 1) (n / 10) [digitChar (n % 10)] (by omega) (by omega)]
    rw [natCharsAux_append (n / 10 + 1) (n / 10) [digitChar (n % 10)] (by omega)]
    rfl

theorem natChars_ne_nil (n : Nat) : natChars n ≠ [] := by
  rw [natChars_eq]
  split <;> simp

theorem natChars_all_digit (n : Nat) : ∀ c ∈ natChars n, c.isDigit = true := by
  induction n using Nat.strong_induction_on with
  | _ n ih =>
      rw [natChars_eq]
      by_cases h10 : n < 10
      · simp only [if_pos h10, List.mem_singleton]
        intro c hc; subst hc; exact digitChar_isDigit h10
      · have hdiv : n / 10 < n := Nat.div_lt_self (by omega) (by omega)
        simp only [if_neg h10, List.mem_append, List.mem_singleton]
        rintro c (hc | hc)
        · exact ih _ hdiv c hc
        · subst hc; exact digitChar_isDigit (Nat.mod_lt _ (by omega))

theorem natChars_cons (n : Nat) :
    ∃ d t, natChars n = d :: t ∧ d.isDigit = true := by
  cases h : natChars n with
  | nil => exact absurd h (natChars_ne_nil n)
  | cons d t =>
      exact ⟨d, t, rfl, natChars_all_digit n d (h ▸ List.mem_cons_self d t)⟩

/-- The value a digit run carries, as `parseDigitsAux` accumulates it. -/
def digitStep (a : Nat) (c : Char) : Nat := a * 10 + (c.toNat - 48)

theorem foldl_natChars (n : Nat) :
    (natChars n).foldl digitStep 0 = n := by
  induction n using Nat.strong_induction_on with
  | _ n ih =>
      rw [natChars_eq]
      by_cases h10 : n < 10
      · simp [if_pos h10, digitStep, digitChar_toNat h10]
      · have hdiv : n / 10 < n := Nat.div_lt_self (by omega) (by omega)
        simp only [if_neg h10, List.foldl_append, List.foldl_cons, List.foldl_nil]
        rw [ih _ hdiv, digitStep, digitChar_toNat (Nat.mod_lt _ (by omega))]
        omega

theorem parseDigitsAux_stop {cs : List Char} (h : noDigitHead cs = true) (a : Nat) :
    parseDigitsAux a cs = (a, cs) := by
  cases cs with
  | nil => rfl
  | cons c t =>
      simp only [noDigitHead, Bool.not_eq_true'] at h
      simp [parseDigitsAux, h]

theorem parseDigitsAux_run :
    ∀ (ds : List Char), (∀ c ∈ ds, c.isDigit = true) →
      ∀ (rest : List Char), noDigitHead rest = true →
      ∀ a, parseDigitsAux a (ds ++ rest) = (ds.foldl digitStep a, rest) := by
  intro ds
  induction ds with
  | nil =>
      intro _ rest hrest a
      simpa using parseDigitsAux_stop hrest a
  | cons c t ih =>
      intro hds rest hrest a
      have hc : c.isDigit = true := hds c (by simp)
      have ht := ih (fun x hx => hds x (by simp [hx])) rest hrest (a * 10 + (c.toNat - 48))
      simp only [List.cons_append, parseDigitsAux, hc, if_true, List.foldl_cons]
      simpa [digitStep, List.append_eq] using ht

/-- Number round-trip: `parseNum` inverts `intChars` whenever the remainder
cannot extend the digit run. -/
theorem parseNum_intChars (n : Int) (rest : List Char) (h : noDigitHead rest = true) :
    parseNum (intChars n ++ rest) = some (n, rest) := by
  by_cases hneg : n < 0
  · obtain ⟨d, t, ht, hd⟩ := natChars_cons n.natAbs
    have harg : intChars n ++ rest = '-' :: (d :: (t ++ rest)) := by
      simp [intChars, hneg, ht]
    rw [harg]
    simp only [parseNum, if_pos rfl, hd, if_pos]
    have hrun := parseDigitsAux_run (natChars n.natAbs) (natChars_all_digit _) rest h
    rw [ht] at hrun
    have hrun2 : parseDigitsAux (d.toNat - 48) (t ++ rest) =
        ((natChars n.natAbs).foldl digitStep 0, rest) := by
      have := hrun 0
      simpa [List.cons_append, parseDigitsAux, hd, digitStep, ht] using this
    rw [hrun2, foldl_natChars]
    simp only [Option.some.injEq, Prod.mk.injEq, and_true]
    omega
  · obtain ⟨d, t, ht, hd⟩ := natChars_cons n.natAbs
    have hne := isDigit_ne hd
    have harg : intChars n ++ rest = d :: (t ++ rest) := by
      simp [intChars, hneg, ht]
    rw [harg]
    simp only [parseNum, if_neg hne.1, hd, if_pos]
    have hrun := parseDigitsAux_run (natChars n.natAbs) (natChars_all_digit _) rest h
    rw [ht] at hrun
    have hrun2 : parseDigitsAux (d.toNat - 48) (t ++ rest) =
        ((natChars n.natAbs).foldl digitStep 0, rest) := by
      have := hrun 0
      simpa [List.cons_append, parseDigitsAux, hd, digitStep, ht] using this
    rw [hrun2, foldl_natChars]
    simp only [Option.some.injEq, Prod.mk.injEq, and_true]
    omega

theorem parseStr_cons_ne {c : Char} (h1 : c ≠ '"') (h2 : c ≠ '\\') (rest : List Char) :
    parseStr (c :: rest) = (parseStr rest).map (fun p => (c :: p.1, p.2)) := by
  rw [parseStr.eq_def]
  simp only []
  rw [if_neg h1, if_neg h2]

theorem parseStr_escaped {e : Char} (he : e = '"' ∨ e = '\\') (rest : List Char) :
    parseStr ('\\' :: e :: rest) = (parseStr rest).map (fun p => (e :: p.1, p.2)) := by
  rw [parseStr.eq_def]
  simp only [if_true]
  rw [if_pos he, if_neg (show ¬('\\' = '"') by decide)]

/-- String-body round-trip: parsing an escaped body recovers it. -/
theorem parseStr_escape :
    ∀ (s : List Char) (rest : List Char),
      parseStr (escape s ++ '"' :: rest) = some (s, rest) := by
  intro s
  induction s with
  | nil =>
      intro rest
      show parseStr ('"' :: rest) = some ([], rest)
      rw [parseStr.eq_def]
      simp only [if_true]
  | cons c t ih =>
      intro rest
      by_cases hc : c = '"' ∨ c = '\\'
      · have harg : escape (c :: t) ++ '"' :: rest =
            '\\' :: c :: (escape t ++ '"' :: rest) := by
          simp [escape, escapeChar, if_pos hc]
        rw [harg, parseStr_escaped hc, ih rest]
        rfl
      · push_neg at hc
        have harg : escape (c :: t) ++ '"' :: rest =
            c :: (escape t ++ '"' :: rest) := by
          simp [escape, escapeChar, hc.1, hc.2]
        rw [harg, parseStr_cons_ne hc.1 hc.2, ih rest]
        rfl

/-! Step lemmas exposing the branch `parseVal` takes for each head
character, so the round-trip induction can rewrite deterministically. -/

theorem parseVal_step_num {c : Char} (h : c = '-' ∨ c.isDigit = true)
    (fuel : Nat) (cs : List Char) :
    parseVal (fuel + 1) (c :: cs) =
      (parseNum (c :: cs)).map (fun p => (Json.num p.1, p.2)) := by
  rw [parseVal.eq_def]
  simp only []
  rw [if_pos h]

theorem parseVal_step_str (fuel : Nat) (cs : List Char) :
    parseVal (fuel + 1) ('"' :: cs) =
      (parseStr cs).map (fun p => (Json.str p.1, p.2)) := by
  rw [parseVal.eq_def]
  simp only []
  simp only [if_true]
  rw [if_neg (by decide)]

theorem parseVal_step_arr (fuel : Nat) (d : Char) (ds : List Char) :
    parseVal (fuel + 1) ('[' :: d :: ds) =
      if d = ']' then some (Json.arr [], ds)
      else (parseElems fuel (d :: ds)).map (fun p => (Json.arr p.1, p.2)) := by
  rw [parseVal.eq_def]
  simp only []
  simp only [if_true]
  rw [if_neg (by decide), if_neg (by decide)]

theorem parseVal_step_obj (fuel : Nat) (d : Char) (ds : List Char) :
    parseVal (fuel + 1) ('{' :: d :: ds) =
      if d = '}' then some (Json.obj [], ds)
      else (parseFields fuel (d :: ds)).map (fun p => (Json.obj p.1, p.2)) := by
  rw [parseVal.eq_def]
  simp only []
  simp only [if_true]
  rw [if_neg (by decide), if_neg (by decide), if_neg (by decide)]

theorem parseVal_step_null (fuel : Nat) (rest : List Char) :
    parseVal (fuel + 1) ('n' :: 'u' :: 'l' :: 'l' :: rest) = some (Json.null, rest) := by
  rw [parseVal.eq_def]
  simp only []
  rw [if_neg (by decide), if_neg (by decide), if_neg (by decide), if_neg (by decide)]

theorem parseVal_step_true (fuel : Nat) (rest : List Char) :
    parseVal (fuel + 1) ('t' :: 'r' :: 'u' :: 'e' :: rest) = some (Json.bool true, rest) := by
  rw [parseVal.eq_def]
  simp only []
  rw [if_neg (by decide), if_neg (by decide), if_neg (by decide), if_neg (by decide)]

theorem parseVal_step_false (fuel : Nat) (rest : List Char) :
    parseVal (fuel + 1) ('f' :: 'a' :: 'l' :: 's' :: 'e' :: rest) =
      some (Json.bool false, rest) := by
  rw [parseVal.eq_def]
  simp only []
  rw [if_neg (by decide), if_neg (by decide), if_neg (by decide), if_neg (by decide)]

theorem parseFields_step_quote (fuel : Nat) (cs : List Char) :
    parseFields (fuel + 1) ('"' :: cs) =
      (match parseStr cs with
       | none => none
       | some (k, rest1) =>
           match rest1 with
           | ':' :: rest2 =>
               match parseVal fuel rest2 with
               | none => none
               | some (v, rest3) =>
                   match rest3 with
                   | ',' :: rest4 =>
                       (parseFields fuel rest4).map (fun p => ((k, v) :: p.1, p.2))
                   | '}' :: rest4 => some ([(k, v)], rest4)
                   | _ => none
           | _ => none) := by
  rw [parseFields.eq_def]
  simp only []
  simp only [if_true]

/-! Head-character facts about rendered output, used to pick the right
parser branch for nonempty arrays and objects. -/

theorem stringify_head (v : Json) :
    ∃ c t, stringify v = c :: t ∧ c ≠ ']' ∧ c ≠ '}' ∧ c ≠ ',' := by
  cases v with
  | null => refine ⟨'n', _, rfl, ?_, ?_, ?_⟩ <;> decide
  | bool b =>
      cases b
      · refine ⟨'f', _, rfl, ?_, ?_, ?_⟩ <;> decide
      · refine ⟨'t', _, rfl, ?_, ?_, ?_⟩ <;> decide
  | num n =>
      by_cases hneg : n < 0
      · exact ⟨'-', natChars n.natAbs, by simp [stringify, intChars, hneg],
          by decide, by decide, by decide⟩
      · obtain ⟨d, t, ht, hd⟩ := natChars_cons n.natAbs
        have hne := isDigit_ne hd
        exact ⟨d, t, by simp [stringify, intChars, hneg, ht],
          hne.2.2.2.2.2.2.2.1, hne.2.2.2.2.2.2.2.2.1, hne.2.2.2.2.2.2.2.2.2.1⟩
  | str s => refine ⟨'"', escape s ++ [ '"'], rfl, ?_, ?_, ?_⟩ <;> decide
  | arr xs => refine ⟨'[', stringifyElems xs ++ [ ']'], rfl, ?_, ?_, ?_⟩ <;> decide
  | obj fs => refine ⟨'{', stringifyFields fs ++ [ '}'], rfl, ?_, ?_, ?_⟩ <;> decide

theorem stringify_ne_nil (v : Json) : stringify v ≠ [] := by
  obtain ⟨c, t, h, -⟩ := stringify_head v
  simp [h]

theorem stringifyElems_cons_head (x : Json) (xs : List Json) :
    ∃ c t, stringifyElems (x :: xs) = c :: t ∧ c ≠ ']' ∧ c ≠ '}' ∧ c ≠ ',' := by
  obtain ⟨c, t, h, h1, h2, h3⟩ := stringify_head x
  cases xs with
  | nil => exact ⟨c, t, by simp [stringifyElems, h], h1, h2, h3⟩
  | cons y ys =>
      exact ⟨c, t ++ ',' :: stringifyElems (y :: ys),
        by simp [stringifyElems, h], h1, h2, h3⟩

theorem stringifyElems_ne_nil (x : Json) (xs : List Json) :
    stringifyElems (x :: xs) ≠ [] := by
  obtain ⟨c, t, h, -⟩ := stringifyElems_cons_head x xs
  simp [h]

theorem stringifyFields_cons_head (k : List Char) (w : Json)
    (fs : List (List Char × Json)) :
    ∃ t, stringifyFields ((k, w) :: fs) = '"' :: t := by
  cases fs with
  | nil => exact ⟨escape k ++ [ '"'] ++ ':' :: stringify w, by simp [stringifyFields, strLit]⟩
  | cons f2 fs2 =>
      exact ⟨escape k ++ [ '"'] ++ ':' :: stringify w ++ ',' :: stringifyFields (f2 :: fs2),
        by simp [stringifyFields, strLit]⟩

theorem parseElems_step (fuel : Nat) (cs : List Char) :
    parseElems (fuel + 1) cs =
      (match parseVal fuel cs with
       | none => none
       | some (v, rest) =>
           match rest with
           | ',' :: rest2 => (parseElems fuel rest2).map (fun p => (v :: p.1, p.2))
           | ']' :: rest2 => some ([v], rest2)
           | _ => none) := by
  rw [parseElems.eq_def]

/-- The heart of the round-trip: with fuel exceeding the rendered length,
the parser inverts `stringify` (and its element/field companions), leaving
any delimiter-headed remainder untouched. -/
theorem parse_roundAux :
    ∀ fuel : Nat,
      (∀ (v : Json) (rest : List Char), (stringify v).length < fuel →
        noDigitHead rest = true → parseVal fuel (stringify v ++ rest) = some (v, rest)) ∧
      (∀ (x : Json) (xs : List Json) (rest : List Char),
        (stringifyElems (x :: xs)).length + 1 < fuel →
        parseElems fuel (stringifyElems (x :: xs) ++ ']' :: rest) = some (x :: xs, rest)) ∧
      (∀ (k : List Char) (w : Json) (fs : List (List Char × Json)) (rest : List Char),
        (stringifyFields ((k, w) :: fs)).length + 1 < fuel →
        parseFields fuel (stringifyFields ((k, w) :: fs) ++ '}' :: rest) =
          some ((k, w) :: fs, rest)) := by
  intro fuel
  induction fuel with
  | zero =>
      refine ⟨fun v rest h => absurd h (by omega), fun x xs rest h => absurd h (by omega),
        fun k w fs rest h => absurd h (by omega)⟩
  | succ f ih =>
      obtain ⟨ihv, ihe, ihf⟩ := ih
      refine ⟨?_, ?_, ?_⟩
      · intro v rest hlen hrest
        cases v with
        | null => exact parseVal_step_null f rest
        | bool b =>
            cases b with
            | true => exact parseVal_step_true f rest
            | false => exact parseVal_step_false f rest
        | num n =>
            by_cases hneg : n < 0
            · have harg : stringify (Json.num n) ++ rest =
                  '-' :: (natChars n.natAbs ++ rest) := by
                simp [stringify, intChars, hneg]
              rw [harg, parseVal_step_num (Or.inl rfl)]
              have harg2 : '-' :: (natChars n.natAbs ++ rest) = intChars n ++ rest := by
                simp [intChars, hneg]
              rw [harg2, parseNum_intChars n rest hrest]
              rfl
            · obtain ⟨d, t, ht, hd⟩ := natChars_cons n.natAbs
              have harg : stringify (Json.num n) ++ rest = d :: (t ++ rest) := by
                simp [stringify, intChars, hneg, ht]
              rw [harg, parseVal_step_num (Or.inr hd)]
              have harg2 : d :: (t ++ rest) = intChars n ++ rest := by
                simp [intChars, hneg, ht]
              rw [harg2, parseNum_intChars n rest hrest]
              rfl
        | str s =>
            have harg : stringify (Json.str s) ++ rest =
                '"' :: (escape s ++ '"' :: rest) := by
              simp [stringify, strLit]
            rw [harg, parseVal_step_str, parseStr_escape]
            rfl
        | arr xs =>
            cases xs with
            | nil =>
                have harg : stringify (Json.arr []) ++ rest = '[' :: ']' :: rest := rfl
                rw [harg, parseVal_step_arr, if_pos rfl]
            | cons x xs2 =>
                obtain ⟨c, t, hct, hc1, hc2, hc3⟩ := stringifyElems_cons_head x xs2
                have harg : stringify (Json.arr (x :: xs2)) ++ rest =
                    '[' :: (c :: (t ++ ']' :: rest)) := by
                  simp [stringify, hct]
                rw [harg, parseVal_step_arr, if_neg hc1]
                have harg2 : c :: (t ++ ']' :: rest) =
                    stringifyElems (x :: xs2) ++ ']' :: rest := by
                  simp [hct]
                have hb : (stringifyElems (x :: xs2)).length + 1 < f := by
                  simp only [stringify, List.length_cons, List.length_append,
                    List.length_singleton] at hlen
                  omega
                rw [harg2, ihe x xs2 rest hb]
                rfl
        | obj fs =>
            cases fs with
            | nil =>
                have harg : stringify (Json.obj []) ++ rest = '{' :: '}' :: rest := rfl
                rw [harg, parseVal_step_obj, if_pos rfl]
            | cons kv fs2 =>
                obtain ⟨k, w⟩ := kv
                obtain ⟨t, hct⟩ := stringifyFields_cons_head k w fs2
                have harg : stringify (Json.obj ((k, w) :: fs2)) ++ rest =
                    '{' :: ('"' :: (t ++ '}' :: rest)) := by
                  simp [stringify, hct]
                rw [harg, parseVal_step_obj, if_neg (by decide)]
                have harg2 : '"' :: (t ++ '}' :: rest) =
                    stringifyFields ((k, w) :: fs2) ++ '}' :: rest := by
                  simp [hct]
                have hb : (stringifyFields ((k, w) :: fs2)).length + 1 < f := by
                  simp only [stringify, List.length_cons, List.length_append,
                    List.length_singleton] at hlen
                  omega
                rw [harg2, ihf k w fs2 rest hb]
                rfl
      · intro x xs rest hlen
        cases xs with
        | nil =>
            have hb : (stringify x).length < f := by
              simp only [stringifyElems] at hlen
              omega
            have harg : stringifyElems [x] ++ ']' :: rest =
                stringify x ++ ']' :: rest := rfl
            rw [parseElems_step, harg, ihv x (']' :: rest) hb rfl]
            rfl
        | cons y ys =>
            have hx1 : (stringify x).length ≠ 0 := by
              simp [stringify_ne_nil x]
            have hy1 : (stringifyElems (y :: ys)).length ≠ 0 := by
              simp [stringifyElems_ne_nil y ys]
            have hlen2 : (stringify x).length + 1 +
                (stringifyElems (y :: ys)).length + 1 < f + 1 := by
              simp only [stringifyElems, List.length_append, List.length_cons] at hlen
              omega
            have hbx : (stringify x).length < f := by omega
            have hbe : (stringifyElems (y :: ys)).length + 1 < f := by omega
            have harg : stringifyElems (x :: y :: ys) ++ ']' :: rest =
                stringify x ++ ',' :: (stringifyElems (y :: ys) ++ ']' :: rest) := by
              simp [stringifyElems]
            rw [parseElems_step, harg,
              ihv x (',' :: (stringifyElems (y :: ys) ++ ']' :: rest)) hbx rfl]
            show (parseElems f (stringifyElems (y :: ys) ++ ']' :: rest)).map
                (fun p => (x :: p.1, p.2)) = _
            rw [ihe y ys rest hbe]
            rfl
      · intro k w fs rest hlen
        cases fs with
        | nil =>
            have hb : (stringify w).length < f := by
              simp only [stringifyFields, strLit, List.length_append,
                List.length_cons] at hlen
              omega
            have harg : stringifyFields [(k, w)] ++ '}' :: rest =
                '"' :: (escape k ++ '"' :: (':' :: (stringify w ++ '}' :: rest))) := by
              simp [stringifyFields, strLit]
            rw [harg, parseFields_step_quote, parseStr_escape]
            show (match parseVal f (stringify w ++ '}' :: rest) with
                  | none => none
                  | some (v, rest3) =>
                      match rest3 with
                      | ',' :: rest4 =>
                          (parseFields f rest4).map
                            (fun (p : List (List Char × Json) × List Char) =>
                              ((k, v) :: p.1, p.2))
                      | '}' :: rest4 => some ([(k, v)], rest4)
                      | _ => none) = _
            rw [ihv w ('}' :: rest) hb rfl]
            rfl
        | cons f2 fs2 =>
            obtain ⟨k2, w2⟩ := f2
            have hf1 : (stringifyFields ((k2, w2) :: fs2)).length ≠ 0 := by
              obtain ⟨t2, ht2⟩ := stringifyFields_cons_head k2 w2 fs2
              simp [ht2]
            have hlen2 : (escape k).length + 2 + 1 + (stringify w).length + 1 +
                (stringifyFields ((k2, w2) :: fs2)).length + 1 < f + 1 := by
              simp only [stringifyFields, strLit, List.length_append,
                List.length_cons, List.length_nil] at hlen
              omega
            have hbw : (stringify w).length < f := by omega
            have hbf : (stringifyFields ((k2, w2) :: fs2)).length + 1 < f := by omega
            have harg : stringifyFields ((k, w) :: (k2, w2) :: fs2) ++ '}' :: rest =
                '"' :: (escape k ++ '"' :: (':' :: (stringify w ++
                  ',' :: (stringifyFields ((k2, w2) :: fs2) ++ '}' :: rest)))) := by
              simp [stringifyFields, strLit]
            rw [harg, parseFields_step_quote, parseStr_escape]
            show (match parseVal f (stringify w ++
                    ',' :: (stringifyFields ((k2, w2) :: fs2) ++ '}' :: rest)) with
                  | none => none
                  | some (v, rest3) =>
                      match rest3 with
                      | ',' :: rest4 =>
                          (parseFields f rest4).map
                            (fun (p : List (List Char × Json) × List Char) =>
                              ((k, v) :: p.1, p.2))
                      | '}' :: rest4 => some ([(k, v)], rest4)
                      | _ => none) = _
            rw [ihv w (',' :: (stringifyFields ((k2, w2) :: fs2) ++ '}' :: rest)) hbw rfl]
            show (parseFields f (stringifyFields ((k2, w2) :: fs2) ++ '}' :: rest)).map
                (fun (p : List (List Char × Json) × List Char) =>
                  ((k, w) :: p.1, p.2)) = _
            rw [ihf k2 w2 fs2 rest hbf]
            rfl

/-- Round-trip: decoding a dump recovers exactly the captured value. -/
theorem parse_stringify (v : Json) : parse (stringify v) = some v := by
  have h := (parse_roundAux ((stringify v).length + 1)).1 v [] (by omega) rfl
  rw [List.append_nil] at h
  rw [parse, h]

/-! ## The IndexedDB object-store model

Only what the engine relies on: named stores with an optional key path, an
auto-increment key generator, and `put` semantics (explicit keys, embedded
key-path keys, generated keys with key injection). Record lists are kept
in the store's key order, which is the order `getAllKeys`/`getAll`
enumerate. -/

inductive IKey where
  | num (n : Int)
  | str (s : List Char)
deriving Repr, DecidableEq

/-- The JS property name a key gets when the capture loop writes
`objectStorageRes[keys[i]]`: numbers print in decimal, strings are
themselves. -/
def keyProp : IKey → List Char
  | .num n => intChars n
  | .str s => s

structure ObjStore where
  keyPath : Option (List Char)
  autoIncrement : Bool
  keyGen : Nat
  records : List (IKey × Json)
deriving Repr, DecidableEq

structure IDB_DB where
  version : Nat
  stores : List (List Char × ObjStore)
deriving Repr, DecidableEq

/-- The browser's databases, by name. -/
abbrev Env := List (List Char × IDB_DB)

/-- Association-list lookup by name. -/
def alookup {β : Type} (k : List Char) : List (List Char × β) → Option β
  | [] => none
  | (k2, v) :: rest => if k2 = k then some v else alookup k rest

/-- Association-list write: replace in place, append when new — exactly a
JS `obj[k] = v` property assignment. -/
def aset {β : Type} : List (List Char × β) → List Char → β → List (List Char × β)
  | [], k, v => [(k, v)]
  | (k2, v2) :: rest, k, v =>
      if k2 = k then (k, v) :: rest else (k2, v2) :: aset rest k v

/-- Build a JS object by assigning the pairs left to right (duplicates
collapse, last value wins, first position kept). -/
def objFromList {β : Type} (l : List (List Char × β)) : List (List Char × β) :=
  l.foldl (fun acc p => aset acc p.1 p.2) []

/-- Record write inside a store: overwrite the record with that key, or
append a new one. -/
def upsert : List (IKey × Json) → IKey → Json → List (IKey × Json)
  | [], k, v => [(k, v)]
  | (k2, v2) :: rs, k, v =>
      if k2 = k then (k, v) :: rs else (k2, v2) :: upsert rs k v

def klookup (k : IKey) : List (IKey × Json) → Option Json
  | [] => none
  | (k2, v) :: rs => if k2 = k then some v else klookup k rs

/-- The fields of a JS object; `Object.keys` of a primitive yields nothing
(capture only ever stores objects here). -/
def getFields : Json → List (List Char × Json)
  | .obj fs => fs
  | _ => []

/-- A structured value used as an IndexedDB key: this engine's dumps only
carry number and string keys (arrays and dates are unused). -/
def toIKey : Json → Option IKey
  | .num n => some (.num n)
  | .str s => some (.str s)
  | _ => none

/-- Storing a record with numeric key at or above the generator's next
value pushes the generator past it. -/
def bumpGen (g : Nat) (k : IKey) : Nat :=
  match k with
  | .num n => if (g : Int) ≤ n then n.toNat + 1 else g
  | .str _ => g

/-- IndexedDB `put`. `none` models the synchronous `DataError` throw: an
explicit key on an in-line-key store, a key path that evaluates to no valid
key without a generator, or a primitive value in a keyPath store. With a
key path and a generator, a missing key field is injected into the stored
value. -/
def putRecord (st : ObjStore) (v : Json) (key : Option IKey) : Option ObjStore :=
  match st.keyPath with
  | some kp =>
      match key with
      | some _ => none
      | none =>
          match v with
          | .obj fs =>
              match alookup kp fs with
              | some kv =>
                  match toIKey kv with
                  | some k =>
                      some { st with records := upsert st.records k v,
                                     keyGen := bumpGen st.keyGen k }
                  | none => none
              | none =>
                  if st.autoIncrement then
                    some { st with
                      records := upsert st.records (.num (st.keyGen : Int))
                        (.obj (aset fs kp (.num (st.keyGen : Int)))),
                      keyGen := st.keyGen + 1 }
                  else none
          | _ => none
  | none =>
      match key with
      | some k =>
          some { st with records := upsert st.records k v,
                         keyGen := bumpGen st.keyGen k }
      | none =>
          if st.autoIncrement then
            some { st with records := upsert st.records (.num (st.keyGen : Int)) v,
                           keyGen := st.keyGen + 1 }
          else none

/-! ## Capture: `createAuth` (src/lib.ts lines 268-346)

Per store: `objectStorageRes[keys[i]] = JSON.stringify(values[i])`; per
database: `dbRes[storeName] = objectStorageRes` and
`idbs[db.name] = JSON.stringify(dbRes)`. -/

def captureStoreFields (st : ObjStore) : List (List Char × Json) :=
  objFromList (st.records.map (fun r => (keyProp r.1, Json.str (stringify r.2))))

def captureDB (db : IDB_DB) : List Char :=
  stringify (Json.obj (objFromList
    (db.stores.map (fun s => (s.1, Json.obj (captureStoreFields s.2))))))

/-- The `idbs` record `createAuth` returns: database name to dump string. -/
def createAuthIdbs (env : Env) : List (List Char × List Char) :=
  objFromList (env.map (fun d => (d.1, captureDB d.2)))

/-! ## Restore: the retrying `loadAuth` (src/lib.ts lines 348-533)

Environmental outcomes — open errors, blocked opens, event-delivered
transaction failures — are injected through oracles; everything else is
the code's own control flow. The engine's observable actions are recorded
in an event trace. -/

inductive OpenKind where
  | probe
  | versionRead
  | main
deriving Repr, DecidableEq

inductive OpenOutcome where
  | ok
  | err
  | blocked
deriving Repr, DecidableEq

inductive Ev where
  | openReq (db : List Char) (version : Option Nat)
  | openOk (cid : Nat) (db : List Char) (kind : OpenKind)
  | openErr (db : List Char)
  | openBlocked (db : List Char)
  | connClosed (cid : Nat)
  | storeCreated (db store kp : List Char) (autoInc : Bool)
  | storeError (db store : List Char)
deriving Repr, DecidableEq

structure EngineState where
  env : Env
  nextCid : Nat
  trace : List Ev
deriving Repr, DecidableEq

/-- Environmental outcomes for one database's restore. `txnFail s` forces
the event-delivered transaction error/abort for store `s` (rolled back by
the engine, per IndexedDB abort semantics). -/
structure DbOracle where
  probeErr : Bool
  versionErr : Bool
  mainOutcome : OpenOutcome
  txnFail : List Char → Bool

/-- The call `indexedDB.open(name)` without a version: creates the database at
version 1 with no stores when absent, and hands out a connection. -/
def doOpenNoVersion (s : EngineState) (name : List Char) (kind : OpenKind) :
    EngineState × Nat × IDB_DB :=
  let db := match alookup name s.env with
    | some db => db
    | none => { version := 1, stores := [] }
  ({ s with
      env := aset s.env name db,
      nextCid := s.nextCid + 1,
      trace := s.trace ++ [Ev.openReq name none, Ev.openOk s.nextCid name kind] },
   s.nextCid, db)

/-- Lines 381-393: the probe open. On success, compute which dump stores
are missing from the live schema and close the connection; on error,
resolve `false` (no upgrade). -/
def probePhase (o : DbOracle) (name : List Char) (names : List (List Char))
    (s : EngineState) : EngineState × Bool :=
  if o.probeErr then
    ({ s with trace := s.trace ++ [Ev.openReq name none, Ev.openErr name] }, false)
  else
    let (s2, cid, tempDb) := doOpenNoVersion s name .probe
    let missing := names.filter (fun n => (alookup n tempDb.stores).isNone)
    ({ s2 with trace := s2.trace ++ [Ev.connClosed cid] }, !missing.isEmpty)

/-- Lines 400-408: read the current version and close; on error resolve 1. -/
def versionPhase (o : DbOracle) (name : List Char) (s : EngineState) :
    EngineState × Nat :=
  if o.versionErr then
    ({ s with trace := s.trace ++ [Ev.openReq name none, Ev.openErr name] }, 1)
  else
    let (s2, cid, db) := doOpenNoVersion s name .versionRead
    ({ s2 with trace := s2.trace ++ [Ev.connClosed cid] }, db.version)

/-- The store `createObjectStore(storeName, { keyPath: "id",
autoIncrement: true })` produces: a fresh key generator and no records. -/
def freshStore : ObjStore :=
  { keyPath := some "id".toList, autoIncrement := true, keyGen := 1, records := [] }

/-- The upgrade callback of lines 414-427: create each dump store missing
from the schema, with `keyPath: "id", autoIncrement: true`. -/
def createMissing (dbName : List Char) (names : List (List Char)) (db : IDB_DB)
    (evs : List Ev) : IDB_DB × List Ev :=
  names.foldl
    (fun acc n =>
      match alookup n acc.1.stores with
      | some _ => acc
      | none =>
          ({ acc.1 with stores := acc.1.stores ++ [(n, freshStore)] },
           acc.2 ++ [Ev.storeCreated dbName n "id".toList true]))
    (db, evs)

/-- Lines 410-432: open at `reqVersion`; a higher version runs the upgrade
callback, an equal one succeeds as-is, a lower one fires `onerror`
(VersionError). `onerror` and `onblocked` both reject. The connection is
registered open and never closed by the engine. -/
def upgradeOpen (o : DbOracle) (name : List Char) (reqVersion : Nat)
    (names : List (List Char)) (s : EngineState) : EngineState × Bool :=
  let s1 := { s with trace := s.trace ++ [Ev.openReq name (some reqVersion)] }
  match o.mainOutcome with
  | .err => ({ s1 with trace := s1.trace ++ [Ev.openErr name] }, false)
  | .blocked => ({ s1 with trace := s1.trace ++ [Ev.openBlocked name] }, false)
  | .ok =>
      let cur : IDB_DB := match alookup name s1.env with
        | some db => db
        | none => { version := 0, stores := [] }
      if cur.version < reqVersion then
        let (db2, evs) := createMissing name names
          { cur with version := reqVersion } []
        ({ s1 with
            env := aset s1.env name db2,
            nextCid := s1.nextCid + 1,
            trace := s1.trace ++ evs ++ [Ev.openOk s1.nextCid name .main] }, true)
      else if cur.version = reqVersion then
        ({ s1 with
            env := aset s1.env name cur,
            nextCid := s1.nextCid + 1,
            trace := s1.trace ++ [Ev.openOk s1.nextCid name .main] }, true)
      else
        ({ s1 with trace := s1.trace ++ [Ev.openErr name] }, false)

/-- Lines 435-440: the version-less open of the no-upgrade path; `onerror`
and `onblocked` both reject. The connection is never closed by the
engine. -/
def plainOpen (o : DbOracle) (name : List Char) (s : EngineState) :
    EngineState × Bool :=
  match o.mainOutcome with
  | .err => ({ s with trace := s.trace ++ [Ev.openReq name none, Ev.openErr name] }, false)
  | .blocked =>
      ({ s with trace := s.trace ++ [Ev.openReq name none, Ev.openBlocked name] }, false)
  | .ok =>
      let (s2, _cid, _db) := doOpenNoVersion s name .main
      (s2, true)

/-- Lines 483-489: re-encode a non-string, then best-effort `JSON.parse`,
keeping the string on failure. -/
def decodeValue (value : Json) : Json :=
  let s := match value with
    | .str s => s
    | v => stringify v
  match parse s with
  | some w => w
  | none => .str s

/-- Lines 491-495: one `put`, with the explicit key exactly when the live
store has no key path. -/
def writeItem (st : ObjStore) (key : List Char) (value : Json) : Option ObjStore :=
  let parsedValue := decodeValue value
  if st.keyPath.isSome then putRecord st parsedValue none
  else putRecord st parsedValue (some (.str key))

/-- Lines 479-496: the per-key loop. A synchronous `DataError` aborts the
loop (remaining keys are skipped) but the puts already queued commit. -/
def writeItems : ObjStore → List (List Char × Json) → ObjStore × Bool
  | st, [] => (st, true)
  | st, (k, v) :: rest =>
      match writeItem st k v with
      | some st2 => writeItems st2 rest
      | none => (st, false)

/-- Lines 443-506: one store inside its try/catch. A missing store
(`db.transaction` throws NotFound), a forced transaction failure (rolled
back), or a per-item throw is recorded and the loop moves on. -/
def processStore (o : DbOracle) (name storeName : List Char)
    (items : List (List Char × Json)) (s : EngineState) : EngineState :=
  match alookup name s.env with
  | none => { s with trace := s.trace ++ [Ev.storeError name storeName] }
  | some db =>
      match alookup storeName db.stores with
      | none => { s with trace := s.trace ++ [Ev.storeError name storeName] }
      | some st =>
          if o.txnFail storeName then
            { s with trace := s.trace ++ [Ev.storeError name storeName] }
          else
            let r := writeItems st items
            let db2 := { db with stores := aset db.stores storeName r.1 }
            let s2 := { s with env := aset s.env name db2 }
            if r.2 then s2
            else { s2 with trace := s2.trace ++ [Ev.storeError name storeName] }

/-- The items of one store in the parsed dump:
`Object.keys(dbData[storeName])` and their values, as a JS object. -/
def storeItems (dbFields : List (List Char × Json)) (storeName : List Char) :
    List (List Char × Json) :=
  objFromList (getFields (match alookup storeName dbFields with
    | some v => v
    | none => Json.null))

/-- The store loop of lines 443-506, sequential over the dump's store
names. -/
def writePhase (o : DbOracle) (name : List Char)
    (dbFields : List (List Char × Json)) (s : EngineState) : EngineState :=
  (dbFields.map Prod.fst).foldl
    (fun s2 storeName => processStore o name storeName (storeItems dbFields storeName) s2) s

/-- Lines 371-507: one database of one attempt — parse the dump, probe,
upgrade on drift or open plainly, then write store by store. `false` means
an exception escaped (bad dump JSON or a rejected open), aborting the whole
in-page evaluation. -/
def restoreDb (o : DbOracle) (name : List Char) (dumpStr : List Char)
    (s : EngineState) : EngineState × Bool :=
  match parse dumpStr with
  | none => (s, false)
  | some dump =>
      let dbFields := objFromList (getFields dump)
      let storeNames := dbFields.map Prod.fst
      let (s1, needsUpgrade) := probePhase o name storeNames s
      if needsUpgrade then
        let (s2, ver) := versionPhase o name s1
        let (s3, opened) := upgradeOpen o name (ver + 1) storeNames s2
        if opened then (writePhase o name dbFields s3, true) else (s3, false)
      else
        let (s2, opened) := plainOpen o name s1
        if opened then (writePhase o name dbFields s2, true) else (s2, false)

/-- The `for (const dbName in auth.idbs)` loop: sequential, stopping at the
first database whose processing throws. -/
def restoreAll (os : List Char → DbOracle) :
    List (List Char × List Char) → EngineState → EngineState × Bool
  | [], s => (s, true)
  | (n, d) :: rest, s =>
      match restoreDb (os n) n d s with
      | (s2, false) => (s2, false)
      | (s2, true) => restoreAll os rest s2

/-! ## The retry loop (lines 348-533) -/

def navErrorMsg : List Char := "Navigation failed".toList

def evalErrorMsg : List Char := "IndexedDB load failed".toList

def reloadErrorMsg : List Char := "Reload failed".toList

/-- The message of the error `loadAuth` throws after exhausting retries. -/
def exhaustedMsg : List Char :=
  "Failed to load IndexedDB data after multiple retries".toList

/-- Environmental outcomes for one attempt: the `page.goto`, the in-page
evaluation's oracles, and the `page.reload`. -/
structure AttemptOracle where
  navFails : Bool
  reloadFails : Bool
  dbs : List Char → DbOracle

/-- One attempt of the retry loop: navigate, run the in-page restore,
reload. Returns the thrown error or success, plus the storage state left
behind (failed attempts keep their partial writes). -/
def attemptRun (ao : AttemptOracle) (idbs : List (List Char × List Char))
    (env : Env) : Except (List Char) Env × Env :=
  if ao.navFails then (Except.error navErrorMsg, env)
  else
    let r := restoreAll ao.dbs idbs { env := env, nextCid := 0, trace := [] }
    if !r.2 then (Except.error evalErrorMsg, r.1.env)
    else if ao.reloadFails then (Except.error reloadErrorMsg, r.1.env)
    else (Except.ok r.1.env, r.1.env)

structure LoadResult where
  result : Except (List Char) Env
  attempts : Nat
  delays : List Nat
deriving Repr

/-- The `while (retryCount < maxRetries && !success)` loop, by remaining
attempts: a successful attempt exits immediately; a failed one counts, and
sleeps 500 ms only when another attempt remains; running out raises the
exhaustion error. -/
def loadGo (idbs : List (List Char × List Char)) (os : Nat → AttemptOracle) :
    Nat → Nat → Env → LoadResult
  | _, 0, _ => { result := Except.error exhaustedMsg, attempts := 0, delays := [] }
  | i, r + 1, env =>
      match attemptRun (os i) idbs env with
      | (Except.ok e2, _) => { result := Except.ok e2, attempts := 1, delays := [] }
      | (Except.error _, e2) =>
          let out := loadGo idbs os (i + 1) r e2
          { result := out.result, attempts := out.attempts + 1,
            delays := (if 0 < r then [500] else []) ++ out.delays }

def maxRetries : Nat := 3

/-- The model of `loadAuth`: the retry loop at its configured bound. -/
def loadAuthModel (idbs : List (List Char × List Char)) (os : Nat → AttemptOracle)
    (env : Env) : LoadResult :=
  loadGo idbs os 0 maxRetries env

/-! ## Observation helpers over states and traces -/

def lookupStore (env : Env) (dbName storeName : List Char) : Option ObjStore :=
  match alookup dbName env with
  | none => none
  | some db => alookup storeName db.stores

def storeRecords (env : Env) (dbName storeName : List Char) :
    Option (List (IKey × Json)) :=
  (lookupStore env dbName storeName).map ObjStore.records

/-- The connections still open after a trace: every successful open minus
every close. -/
def openConnsAfter (tr : List Ev) : List (Nat × List Char × OpenKind) :=
  tr.foldl
    (fun acc e =>
      match e with
      | Ev.openOk cid db kind => acc ++ [(cid, db, kind)]
      | Ev.connClosed cid => acc.filter (fun c => c.1 ≠ cid)
      | _ => acc) []

/-- The open requests of a trace, with the version argument used. -/
def openReqs (tr : List Ev) : List (List Char × Option Nat) :=
  tr.filterMap (fun e =>
    match e with
    | Ev.openReq db v => some (db, v)
    | _ => none)

/-- The stores a trace created, with their key policy. -/
def createdStores (tr : List Ev) : List (List Char × List Char × List Char × Bool) :=
  tr.filterMap (fun e =>
    match e with
    | Ev.storeCreated d st kp ai => some (d, st, kp, ai)
    | _ => none)

/-- The keys of the dump's entry for one store of one database — the keys
restore will write there. -/
def dumpKeys (idbs : List (List Char × List Char)) (dbName storeName : List Char) :
    List (List Char) :=
  match alookup dbName idbs with
  | none => []
  | some dumpStr =>
      match parse dumpStr with
      | none => []
      | some dump =>
          match alookup storeName (objFromList (getFields dump)) with
          | none => []
          | some storeVal => (objFromList (getFields storeVal)).map Prod.fst

/-! ## Association-list toolkit -/

theorem alookup_aset_eq {β : Type} :
    ∀ (l : List (List Char × β)) (k : List Char) (v : β),
      alookup k (aset l k v) = some v := by
  intro l
  induction l with
  | nil => intro k v; simp [aset, alookup]
  | cons p rest ih =>
      intro k v
      obtain ⟨k2, v2⟩ := p
      by_cases h : k2 = k
      · simp [aset, alookup, h]
      · simp [aset, alookup, h, ih]

theorem alookup_aset_ne {β : Type} :
    ∀ (l : List (List Char × β)) (k k2 : List Char) (v : β), k2 ≠ k →
      alookup k2 (aset l k v) = alookup k2 l := by
  intro l
  induction l with
  | nil => intro k k2 v h; simp [aset, alookup, Ne.symm h]
  | cons p rest ih =>
      intro k k2 v h
      obtain ⟨k3, v3⟩ := p
      by_cases h3 : k3 = k
      · subst h3
        simp [aset, alookup, Ne.symm h]
      · simp only [aset, if_neg h3, alookup]
        by_cases h4 : k3 = k2
        · simp [h4]
        · simp [h4, ih _ _ _ h]

theorem aset_of_alookup_eq {β : Type} :
    ∀ (l : List (List Char × β)) (k : List Char) (v : β),
      alookup k l = some v → aset l k v = l := by
  intro l
  induction l with
  | nil => intro k v h; simp [alookup] at h
  | cons p rest ih =>
      intro k v h
      obtain ⟨k2, v2⟩ := p
      by_cases h2 : k2 = k
      · subst h2
        simp only [alookup, if_true, Option.some.injEq] at h
        subst h
        simp [aset]
      · simp only [alookup, if_neg h2] at h
        simp [aset, h2, ih _ _ h]

theorem alookup_append_of_none {β : Type} :
    ∀ (l1 l2 : List (List Char × β)) (k : List Char), alookup k l1 = none →
      alookup k (l1 ++ l2) = alookup k l2 := by
  intro l1
  induction l1 with
  | nil => intro l2 k _; simp
  | cons p rest ih =>
      intro l2 k h
      obtain ⟨k2, v2⟩ := p
      by_cases h2 : k2 = k
      · simp [alookup, h2] at h
      · simp only [alookup, if_neg h2] at h
        simp [alookup, h2, ih _ _ h]

theorem aset_of_alookup_none {β : Type} :
    ∀ (l : List (List Char × β)) (k : List Char) (v : β),
      alookup k l = none → aset l k v = l ++ [(k, v)] := by
  intro l
  induction l with
  | nil => intro k v _; simp [aset]
  | cons p rest ih =>
      intro k v h
      obtain ⟨k2, v2⟩ := p
      by_cases h2 : k2 = k
      · simp [alookup, h2] at h
      · simp only [alookup, if_neg h2] at h
        simp [aset, h2, ih _ _ h]

theorem alookup_map_snd {β γ : Type} (g : β → γ) :
    ∀ (l : List (List Char × β)) (k : List Char),
      alookup k (l.map (fun p => (p.1, g p.2))) = (alookup k l).map g := by
  intro l
  induction l with
  | nil => intro k; simp [alookup]
  | cons p rest ih =>
      intro k
      obtain ⟨k2, v2⟩ := p
      by_cases h : k2 = k
      · simp [alookup, h]
      · simp [alookup, h, ih]

theorem alookup_eq_none_of_not_mem {β : Type} :
    ∀ (l : List (List Char × β)) (k : List Char), k ∉ l.map Prod.fst →
      alookup k l = none := by
  intro l
  induction l with
  | nil => intro k _; rfl
  | cons p rest ih =>
      intro k h
      obtain ⟨k2, v2⟩ := p
      simp only [List.map_cons, List.mem_cons] at h
      push_neg at h
      simp [alookup, Ne.symm h.1, ih _ h.2]

theorem alookup_isSome_of_mem {β : Type} :
    ∀ (l : List (List Char × β)) (k : List Char), k ∈ l.map Prod.fst →
      (alookup k l).isSome := by
  intro l
  induction l with
  | nil => intro k h; simp at h
  | cons p rest ih =>
      intro k h
      obtain ⟨k2, v2⟩ := p
      by_cases h2 : k2 = k
      · simp [alookup, h2]
      · simp only [List.map_cons, List.mem_cons] at h
        rcases h with h | h
        · exact absurd h.symm h2
        · simp [alookup, h2, ih _ h]

/-- Building a JS object from pairs with distinct keys keeps them as they
are. -/
theorem objFromList_nodup_eq {β : Type} (l : List (List Char × β))
    (h : (l.map Prod.fst).Nodup) : objFromList l = l := by
  suffices haux : ∀ (l2 : List (List Char × β)) (acc : List (List Char × β)),
      (l2.map Prod.fst).Nodup → (∀ k ∈ l2.map Prod.fst, alookup k acc = none) →
      l2.foldl (fun a p => aset a p.1 p.2) acc = acc ++ l2 by
    have := haux l [] h (fun k _ => rfl)
    simpa [objFromList] using this
  intro l2
  induction l2 with
  | nil => intro acc _ _; simp
  | cons p rest ih =>
      intro acc hnd hnone
      obtain ⟨k, v⟩ := p
      simp only [List.map_cons, List.nodup_cons] at hnd
      have hset : aset acc k v = acc ++ [(k, v)] :=
        aset_of_alookup_none acc k v
          (hnone k (by rw [List.map_cons]; exact List.mem_cons_self _ _))
      simp only [List.foldl_cons, hset]
      rw [ih (acc ++ [(k, v)]) hnd.2]
      · simp
      · intro k2 hk2
        have hne : k ≠ k2 := fun e => hnd.1 (e ▸ hk2)
        have hk2m : k2 ∈ List.map Prod.fst ((k, v) :: rest) := by
          rw [List.map_cons]; exact List.mem_cons_of_mem _ hk2
        rw [alookup_append_of_none _ _ _ (hnone k2 hk2m)]
        simp [alookup, hne]

theorem klookup_upsert_eq : ∀ (rs : List (IKey × Json)) (k : IKey) (v : Json),
    klookup k (upsert rs k v) = some v := by
  intro rs
  induction rs with
  | nil => intro k v; simp [upsert, klookup]
  | cons p rest ih =>
      intro k v
      obtain ⟨k2, v2⟩ := p
      by_cases h : k2 = k
      · simp [upsert, klookup, h]
      · simp [upsert, klookup, h, ih]

theorem klookup_upsert_ne : ∀ (rs : List (IKey × Json)) (k k2 : IKey) (v : Json),
    k2 ≠ k → klookup k2 (upsert rs k v) = klookup k2 rs := by
  intro rs
  induction rs with
  | nil => intro k k2 v h; simp [upsert, klookup, Ne.symm h]
  | cons p rest ih =>
      intro k k2 v h
      obtain ⟨k3, v3⟩ := p
      by_cases h3 : k3 = k
      · subst h3
        simp [upsert, klookup, Ne.symm h]
      · simp only [upsert, if_neg h3, klookup]
        by_cases h4 : k3 = k2
        · simp [h4]
        · simp [h4, ih _ _ _ h]

theorem klookup_upsert_isSome (rs : List (IKey × Json)) (k k2 : IKey) (v : Json)
    (h : (klookup k2 rs).isSome) : (klookup k2 (upsert rs k v)).isSome := by
  by_cases he : k2 = k
  · subst he; simp [klookup_upsert_eq]
  · rw [klookup_upsert_ne rs k k2 v he]; exact h

theorem upsert_of_klookup_none :
    ∀ (rs : List (IKey × Json)) (k : IKey) (v : Json),
      klookup k rs = none → upsert rs k v = rs ++ [(k, v)] := by
  intro rs
  induction rs with
  | nil => intro k v _; simp [upsert]
  | cons p rest ih =>
      intro k v h
      obtain ⟨k2, v2⟩ := p
      by_cases h2 : k2 = k
      · simp [klookup, h2] at h
      · simp only [klookup, if_neg h2] at h
        simp [upsert, h2, ih _ _ h]

theorem alookup_append_of_some {β : Type} :
    ∀ (l1 l2 : List (List Char × β)) (k : List Char) (v : β),
      alookup k l1 = some v → alookup k (l1 ++ l2) = some v := by
  intro l1
  induction l1 with
  | nil => intro l2 k v h; simp [alookup] at h
  | cons p rest ih =>
      intro l2 k v h
      obtain ⟨k2, v2⟩ := p
      by_cases h2 : k2 = k
      · simp only [alookup, if_pos h2] at h
        simp [alookup, h2, h]
      · simp only [alookup, if_neg h2] at h
        simp [alookup, h2, ih _ _ _ h]

theorem alookup_append_single_ne {β : Type} (l : List (List Char × β))
    (k k2 : List Char) (v : β) (h : k2 ≠ k) :
    alookup k2 (l ++ [(k, v)]) = alookup k2 l := by
  cases hl : alookup k2 l with
  | some w => exact alookup_append_of_some l [(k, v)] k2 w hl
  | none =>
      rw [alookup_append_of_none l [(k, v)] k2 hl]
      simp [alookup, Ne.symm h]

theorem aset_keys_of_some {β : Type} :
    ∀ (l : List (List Char × β)) (k : List Char) (v w : β),
      alookup k l = some w → (aset l k v).map Prod.fst = l.map Prod.fst := by
  intro l
  induction l with
  | nil => intro k v w h; simp [alookup] at h
  | cons p rest ih =>
      intro k v w h
      obtain ⟨k2, v2⟩ := p
      by_cases h2 : k2 = k
      · simp [aset, h2]
      · simp only [alookup, if_neg h2] at h
        simp [aset, h2, ih _ _ _ h]

/-- The keys of a built JS object are distinct. -/
theorem objFromList_keys_nodup {β : Type} (l : List (List Char × β)) :
    ((objFromList l).map Prod.fst).Nodup := by
  suffices haux : ∀ (l2 acc : List (List Char × β)), ((acc.map Prod.fst)).Nodup →
      (((l2.foldl (fun a p => aset a p.1 p.2) acc).map Prod.fst)).Nodup by
    exact haux l [] (by simp)
  intro l2
  induction l2 with
  | nil => intro acc h; simpa using h
  | cons p rest ih =>
      intro acc h
      obtain ⟨k, v⟩ := p
      simp only [List.foldl_cons]
      refine ih (aset acc k v) ?_
      cases hl : alookup k acc with
      | some w => rw [aset_keys_of_some acc k v w hl]; exact h
      | none =>
          rw [aset_of_alookup_none acc k v hl]
          simp only [List.map_append, List.map_cons, List.map_nil]
          rw [List.nodup_append]
          refine ⟨h, by simp, ?_⟩
          intro a ha
          simp only [List.mem_singleton]
          intro e
          subst e
          have := alookup_isSome_of_mem acc a ha
          rw [hl] at this
          simp at this

/-! ## Trace-shape lemmas

`writePhase` neither opens nor closes connections and never requests an
open: its trace additions are store errors only. -/

/-- Events that leave the set of open connections unchanged. -/
def connNeutral : Ev → Bool
  | Ev.openOk _ _ _ => false
  | Ev.connClosed _ => false
  | _ => true

theorem openConnsAfter_append_neutral :
    ∀ (evs tr : List Ev), (∀ e ∈ evs, connNeutral e = true) →
      openConnsAfter (tr ++ evs) = openConnsAfter tr := by
  intro evs
  induction evs with
  | nil => intro tr _; simp
  | cons e rest ih =>
      intro tr h
      have he : connNeutral e = true := h e (by simp)
      have step : openConnsAfter (tr ++ [e]) = openConnsAfter tr := by
        unfold openConnsAfter
        rw [List.foldl_append]
        simp only [List.foldl_cons, List.foldl_nil]
        cases e <;> simp_all [connNeutral]
      calc openConnsAfter (tr ++ e :: rest) = openConnsAfter ((tr ++ [e]) ++ rest) := by
            simp
        _ = openConnsAfter (tr ++ [e]) := ih (tr ++ [e]) (fun x hx => h x (by simp [hx]))
        _ = openConnsAfter tr := step

theorem openReqs_append (t1 t2 : List Ev) :
    openReqs (t1 ++ t2) = openReqs t1 ++ openReqs t2 := by
  simp [openReqs]

theorem createdStores_append (t1 t2 : List Ev) :
    createdStores (t1 ++ t2) = createdStores t1 ++ createdStores t2 := by
  simp [createdStores]

theorem processStore_shape (o : DbOracle) (n sn : List Char)
    (items : List (List Char × Json)) (s : EngineState) :
    ∃ evs, (processStore o n sn items s).trace = s.trace ++ evs ∧
      (∀ e ∈ evs, e = Ev.storeError n sn) ∧
      (processStore o n sn items s).nextCid = s.nextCid := by
  unfold processStore
  split
  · exact ⟨[Ev.storeError n sn], rfl, by simp, rfl⟩
  · split
    · exact ⟨[Ev.storeError n sn], rfl, by simp, rfl⟩
    · split
      · exact ⟨[Ev.storeError n sn], rfl, by simp, rfl⟩
      · rename_i st hst htf
        by_cases hr : (writeItems st items).2 = true
        · refine ⟨[], ?_, by simp, ?_⟩ <;> simp [hr]
        · refine ⟨[Ev.storeError n sn], ?_, by simp, ?_⟩ <;> simp [hr]

theorem writePhase_shape (o : DbOracle) (n : List Char)
    (fs : List (List Char × Json)) (s : EngineState) :
    ∃ evs, (writePhase o n fs s).trace = s.trace ++ evs ∧
      (∀ e ∈ evs, ∃ sn, e = Ev.storeError n sn) ∧
      (writePhase o n fs s).nextCid = s.nextCid := by
  unfold writePhase
  generalize fs.map Prod.fst = names
  induction names generalizing s with
  | nil => exact ⟨[], by simp, by simp, rfl⟩
  | cons sn rest ih =>
      simp only [List.foldl_cons]
      obtain ⟨evs1, ht1, hmem1, hc1⟩ := processStore_shape o n sn (storeItems fs sn) s
      obtain ⟨evs2, ht2, hmem2, hc2⟩ := ih (processStore o n sn (storeItems fs sn) s)
      refine ⟨evs1 ++ evs2, ?_, ?_, ?_⟩
      · rw [ht2, ht1, List.append_assoc]
      · intro e he
        rcases List.mem_append.mp he with he | he
        · exact ⟨sn, hmem1 e he⟩
        · exact hmem2 e he
      · rw [hc2, hc1]

theorem writePhase_openReqs (o : DbOracle) (n : List Char)
    (fs : List (List Char × Json)) (s : EngineState) :
    openReqs (writePhase o n fs s).trace = openReqs s.trace ∧
    createdStores (writePhase o n fs s).trace = createdStores s.trace ∧
    openConnsAfter (writePhase o n fs s).trace = openConnsAfter s.trace := by
  obtain ⟨evs, ht, hmem, -⟩ := writePhase_shape o n fs s
  rw [ht]
  have hreqs : openReqs evs = [] := by
    simp only [openReqs]
    rw [List.filterMap_eq_nil_iff]
    intro e he
    obtain ⟨sn, rfl⟩ := hmem e he
    rfl
  have hcrea : createdStores evs = [] := by
    simp only [createdStores]
    rw [List.filterMap_eq_nil_iff]
    intro e he
    obtain ⟨sn, rfl⟩ := hmem e he
    rfl
  refine ⟨?_, ?_, ?_⟩
  · rw [openReqs_append, hreqs, List.append_nil]
  · rw [createdStores_append, hcrea, List.append_nil]
  · exact openConnsAfter_append_neutral evs s.trace
      (fun e he => by obtain ⟨sn, rfl⟩ := hmem e he; rfl)

/-- What a version-less open finds or creates: the live database, or a
fresh empty one at version 1. -/
def probedDb (env : Env) (name : List Char) : IDB_DB :=
  match alookup name env with
  | some db => db
  | none => { version := 1, stores := [] }

theorem doOpenNoVersion_eq (s : EngineState) (name : List Char) (kind : OpenKind) :
    doOpenNoVersion s name kind =
      ({ s with
          env := aset s.env name (probedDb s.env name),
          nextCid := s.nextCid + 1,
          trace := s.trace ++ [Ev.openReq name none, Ev.openOk s.nextCid name kind] },
       s.nextCid, probedDb s.env name) := rfl

theorem createMissing_events (dn : List Char) :
    ∀ (names : List (List Char)) (db : IDB_DB) (evs : List Ev),
      ∃ evs2, (createMissing dn names db evs).2 = evs ++ evs2 ∧
        ∀ e ∈ evs2, ∃ sn, e = Ev.storeCreated dn sn "id".toList true := by
  intro names
  induction names with
  | nil => intro db evs; exact ⟨[], by simp [createMissing], by simp⟩
  | cons n ns ih =>
      intro db evs
      cases hl : alookup n db.stores with
      | some st =>
          have hstep : createMissing dn (n :: ns) db evs = createMissing dn ns db evs := by
            simp [createMissing, List.foldl_cons, hl]
          obtain ⟨evs2, h1, h2⟩ := ih db evs
          exact ⟨evs2, by rw [hstep]; exact h1, h2⟩
      | none =>
          have hstep : createMissing dn (n :: ns) db evs =
              createMissing dn ns { db with stores := db.stores ++ [(n, freshStore)] }
                (evs ++ [Ev.storeCreated dn n "id".toList true]) := by
            simp [createMissing, List.foldl_cons, hl]
          obtain ⟨evs2, h1, h2⟩ := ih { db with stores := db.stores ++ [(n, freshStore)] }
            (evs ++ [Ev.storeCreated dn n "id".toList true])
          refine ⟨Ev.storeCreated dn n "id".toList true :: evs2, ?_, ?_⟩
          · rw [hstep, h1]
            simp
          · intro e he
            rcases List.mem_cons.mp he with he | he
            · exact ⟨n, he⟩
            · exact h2 e he

/-- The upgrade-path specification: with distinct store names, the upgrade
callback creates exactly the missing stores (key path `id`,
auto-increment), appends them to the schema, and sets the requested
version. -/
theorem createMissing_spec (dn : List Char) :
    ∀ (names : List (List Char)) (db : IDB_DB) (evs : List Ev), names.Nodup →
      (createMissing dn names db evs).2 = evs ++
        (names.filter (fun n => (alookup n db.stores).isNone)).map
          (fun n => Ev.storeCreated dn n "id".toList true) ∧
      (createMissing dn names db evs).1.stores = db.stores ++
        (names.filter (fun n => (alookup n db.stores).isNone)).map
          (fun n => (n, freshStore)) ∧
      (createMissing dn names db evs).1.version = db.version := by
  intro names
  induction names with
  | nil => intro db evs _; exact ⟨by simp [createMissing], by simp [createMissing], rfl⟩
  | cons n ns ih =>
      intro db evs hnd
      rw [List.nodup_cons] at hnd
      cases hl : alookup n db.stores with
      | some st =>
          obtain ⟨h1, h2, h3⟩ := ih db evs hnd.2
          refine ⟨?_, ?_, ?_⟩
          · simpa [createMissing, List.foldl_cons, hl] using h1
          · simpa [createMissing, List.foldl_cons, hl] using h2
          · simpa [createMissing, List.foldl_cons, hl] using h3
      | none =>
          have hstep : createMissing dn (n :: ns) db evs =
              createMissing dn ns { db with stores := db.stores ++ [(n, freshStore)] }
                (evs ++ [Ev.storeCreated dn n "id".toList true]) := by
            simp [createMissing, List.foldl_cons, hl]
          obtain ⟨h1, h2, h3⟩ := ih { db with stores := db.stores ++ [(n, freshStore)] }
            (evs ++ [Ev.storeCreated dn n "id".toList true]) hnd.2
          have hfilter : ns.filter (fun n2 =>
              (alookup n2 (db.stores ++ [(n, freshStore)])).isNone) =
              ns.filter (fun n2 => (alookup n2 db.stores).isNone) := by
            apply List.filter_congr
            intro n2 hn2
            have hne : n2 ≠ n := fun e => hnd.1 (e ▸ hn2)
            rw [alookup_append_single_ne db.stores n n2 freshStore hne]
          have hpred : ((alookup n db.stores).isNone : Bool) = true := by
            simp [hl]
          dsimp only at h1 h2 h3
          refine ⟨?_, ?_, ?_⟩
          · rw [hstep, h1, hfilter,
              List.filter_cons_of_pos (p := fun n2 => (alookup n2 db.stores).isNone) hpred]
            simp
          · rw [hstep, h2, hfilter,
              List.filter_cons_of_pos (p := fun n2 => (alookup n2 db.stores).isNone) hpred]
            simp
          · rw [hstep, h3]

theorem probedDb_aset_eq (env : Env) (name : List Char) (db2 : IDB_DB) :
    probedDb (aset env name db2) name = db2 := by
  simp [probedDb, alookup_aset_eq]

theorem aset_aset {β : Type} :
    ∀ (l : List (List Char × β)) (k : List Char) (v w : β),
      aset (aset l k v) k w = aset l k w := by
  intro l
  induction l with
  | nil => intro k v w; simp [aset]
  | cons p rest ih =>
      intro k v w
      obtain ⟨k2, v2⟩ := p
      by_cases h : k2 = k
      · simp [aset, h]
      · simp [aset, h, ih]

theorem probePhase_ok_eq (o : DbOracle) (hp : o.probeErr = false)
    (name : List Char) (names : List (List Char)) (s : EngineState) :
    probePhase o name names s =
      ({ env := aset s.env name (probedDb s.env name),
         nextCid := s.nextCid + 1,
         trace := s.trace ++ [Ev.openReq name none,
           Ev.openOk s.nextCid name OpenKind.probe, Ev.connClosed s.nextCid] },
       !(names.filter (fun n => (alookup n (probedDb s.env name).stores).isNone)).isEmpty) := by
  simp [probePhase, hp, doOpenNoVersion_eq]

theorem versionPhase_ok_eq (o : DbOracle) (hv : o.versionErr = false)
    (name : List Char) (s : EngineState) :
    versionPhase o name s =
      ({ env := aset s.env name (probedDb s.env name),
         nextCid := s.nextCid + 1,
         trace := s.trace ++ [Ev.openReq name none,
           Ev.openOk s.nextCid name OpenKind.versionRead, Ev.connClosed s.nextCid] },
       (probedDb s.env name).version) := by
  simp [versionPhase, hv, doOpenNoVersion_eq]

theorem versionPhase_err_eq (o : DbOracle) (hv : o.versionErr = true)
    (name : List Char) (s : EngineState) :
    versionPhase o name s =
      ({ s with trace := s.trace ++ [Ev.openReq name none, Ev.openErr name] }, 1) := by
  simp [versionPhase, hv]

theorem upgradeOpen_up_eq (o : DbOracle) (hm : o.mainOutcome = OpenOutcome.ok)
    (name : List Char) (rv : Nat) (names : List (List Char)) (s : EngineState)
    (db : IDB_DB) (hcur : alookup name s.env = some db) (hlt : db.version < rv) :
    upgradeOpen o name rv names s =
      ({ env := aset s.env name (createMissing name names { db with version := rv } []).1,
         nextCid := s.nextCid + 1,
         trace := (s.trace ++ [Ev.openReq name (some rv)]) ++
           (createMissing name names { db with version := rv } []).2 ++
           [Ev.openOk s.nextCid name OpenKind.main] },
       true) := by
  simp [upgradeOpen, hm, hcur, hlt]

/-- Whatever the outcome, the upgrade open records exactly one open
request at the requested version. -/
theorem upgradeOpen_openReqs_shape (o : DbOracle) (name : List Char)
    (rv : Nat) (names : List (List Char)) (s : EngineState) :
    openReqs (upgradeOpen o name rv names s).1.trace =
      openReqs s.trace ++ [(name, some rv)] := by
  unfold upgradeOpen
  cases hmo : o.mainOutcome with
  | err => simp [openReqs_append, openReqs]
  | blocked => simp [openReqs_append, openReqs]
  | ok =>
      simp only []
      split
      · obtain ⟨evs2, h1, h2⟩ := createMissing_events name names _ []
        rw [h1]
        simp only [List.nil_append]
        have hevs : openReqs evs2 = [] := by
          simp only [openReqs]
          rw [List.filterMap_eq_nil_iff]
          intro e he
          obtain ⟨sn, rfl⟩ := h2 e he
          rfl
        simp [openReqs_append, openReqs, hevs]
        intro a ha
        obtain ⟨sn, rfl⟩ := h2 a ha
        rfl
      · split
        · simp [openReqs_append, openReqs]
        · simp [openReqs_append, openReqs]

theorem restoreDb_probeErr_eq (o : DbOracle) (name dumpStr : List Char)
    (s : EngineState) (dump : Json)
    (hparse : parse dumpStr = some dump) (hp : o.probeErr = true)
    (hm : o.mainOutcome = OpenOutcome.ok) :
    restoreDb o name dumpStr s =
      (writePhase o name (objFromList (getFields dump))
        { env := aset s.env name (probedDb s.env name),
          nextCid := s.nextCid + 1,
          trace := (s.trace ++ [Ev.openReq name none, Ev.openErr name]) ++
            [Ev.openReq name none, Ev.openOk s.nextCid name OpenKind.main] },
       true) := by
  simp [restoreDb, hparse, probePhase, hp, plainOpen, hm, doOpenNoVersion, probedDb]

theorem restoreDb_noDrift_eq (o : DbOracle) (name dumpStr : List Char)
    (s : EngineState) (dump : Json)
    (hparse : parse dumpStr = some dump) (hp : o.probeErr = false)
    (hm : o.mainOutcome = OpenOutcome.ok)
    (hmiss : ((objFromList (getFields dump)).map Prod.fst).filter
        (fun n => (alookup n (probedDb s.env name).stores).isNone) = []) :
    restoreDb o name dumpStr s =
      (writePhase o name (objFromList (getFields dump))
        { env := aset s.env name (probedDb s.env name),
          nextCid := s.nextCid + 2,
          trace := s.trace ++ [Ev.openReq name none,
            Ev.openOk s.nextCid name OpenKind.probe, Ev.connClosed s.nextCid,
            Ev.openReq name none, Ev.openOk (s.nextCid + 1) name OpenKind.main] },
       true) := by
  simp [restoreDb, hparse, probePhase_ok_eq o hp, hmiss, plainOpen, hm,
    doOpenNoVersion_eq, probedDb_aset_eq, aset_aset]

theorem restoreDb_drift_eq (o : DbOracle) (name dumpStr : List Char)
    (s : EngineState) (dump : Json)
    (hparse : parse dumpStr = some dump) (hp : o.probeErr = false)
    (hv : o.versionErr = false) (hm : o.mainOutcome = OpenOutcome.ok)
    (hmiss : ((objFromList (getFields dump)).map Prod.fst).filter
        (fun n => (alookup n (probedDb s.env name).stores).isNone) ≠ []) :
    restoreDb o name dumpStr s =
      (if (upgradeOpen o name ((probedDb s.env name).version + 1)
            ((objFromList (getFields dump)).map Prod.fst)
            { env := aset s.env name (probedDb s.env name),
              nextCid := s.nextCid + 2,
              trace := s.trace ++ [Ev.openReq name none,
                Ev.openOk s.nextCid name OpenKind.probe, Ev.connClosed s.nextCid,
                Ev.openReq name none,
                Ev.openOk (s.nextCid + 1) name OpenKind.versionRead,
                Ev.connClosed (s.nextCid + 1)] }).2 then
        (writePhase o name (objFromList (getFields dump))
          (upgradeOpen o name ((probedDb s.env name).version + 1)
            ((objFromList (getFields dump)).map Prod.fst)
            { env := aset s.env name (probedDb s.env name),
              nextCid := s.nextCid + 2,
              trace := s.trace ++ [Ev.openReq name none,
                Ev.openOk s.nextCid name OpenKind.probe, Ev.connClosed s.nextCid,
                Ev.openReq name none,
                Ev.openOk (s.nextCid + 1) name OpenKind.versionRead,
                Ev.connClosed (s.nextCid + 1)] }).1, true)
      else
        ((upgradeOpen o name ((probedDb s.env name).version + 1)
            ((objFromList (getFields dump)).map Prod.fst)
            { env := aset s.env name (probedDb s.env name),
              nextCid := s.nextCid + 2,
              trace := s.trace ++ [Ev.openReq name none,
                Ev.openOk s.nextCid name OpenKind.probe, Ev.connClosed s.nextCid,
                Ev.openReq name none,
                Ev.openOk (s.nextCid + 1) name OpenKind.versionRead,
                Ev.connClosed (s.nextCid + 1)] }).1, false)) := by
  have hne : (((objFromList (getFields dump)).map Prod.fst).filter
      (fun n => (alookup n (probedDb s.env name).stores).isNone)).isEmpty = false := by
    cases hfl : ((objFromList (getFields dump)).map Prod.fst).filter
        (fun n => (alookup n (probedDb s.env name).stores).isNone) with
    | nil => exact absurd hfl hmiss
    | cons a l => rfl
  simp [restoreDb, hparse, probePhase_ok_eq o hp, hne, versionPhase_ok_eq o hv,
    probedDb_aset_eq, aset_aset]

theorem restoreDb_drift_versionErr_eq (o : DbOracle) (name dumpStr : List Char)
    (s : EngineState) (dump : Json)
    (hparse : parse dumpStr = some dump) (hp : o.probeErr = false)
    (hv : o.versionErr = true)
    (hmiss : ((objFromList (getFields dump)).map Prod.fst).filter
        (fun n => (alookup n (probedDb s.env name).stores).isNone) ≠ []) :
    restoreDb o name dumpStr s =
      (if (upgradeOpen o name 2 ((objFromList (getFields dump)).map Prod.fst)
            { env := aset s.env name (probedDb s.env name),
              nextCid := s.nextCid + 1,
              trace := s.trace ++ [Ev.openReq name none,
                Ev.openOk s.nextCid name OpenKind.probe, Ev.connClosed s.nextCid,
                Ev.openReq name none, Ev.openErr name] }).2 then
        (writePhase o name (objFromList (getFields dump))
          (upgradeOpen o name 2 ((objFromList (getFields dump)).map Prod.fst)
            { env := aset s.env name (probedDb s.env name),
              nextCid := s.nextCid + 1,
              trace := s.trace ++ [Ev.openReq name none,
                Ev.openOk s.nextCid name OpenKind.probe, Ev.connClosed s.nextCid,
                Ev.openReq name none, Ev.openErr name] }).1, true)
      else
        ((upgradeOpen o name 2 ((objFromList (getFields dump)).map Prod.fst)
            { env := aset s.env name (probedDb s.env name),
              nextCid := s.nextCid + 1,
              trace := s.trace ++ [Ev.openReq name none,
                Ev.openOk s.nextCid name OpenKind.probe, Ev.connClosed s.nextCid,
                Ev.openReq name none, Ev.openErr name] }).1, false)) := by
  have hne : (((objFromList (getFields dump)).map Prod.fst).filter
      (fun n => (alookup n (probedDb s.env name).stores).isNone)).isEmpty = false := by
    cases hfl : ((objFromList (getFields dump)).map Prod.fst).filter
        (fun n => (alookup n (probedDb s.env name).stores).isNone) with
    | nil => exact absurd hfl hmiss
    | cons a l => rfl
  simp [restoreDb, hparse, probePhase_ok_eq o hp, hne, versionPhase_err_eq o hv,
    probedDb_aset_eq, aset_aset]

/-- The all-success oracle: every open succeeds, no transaction fails. -/
def allOkDb : DbOracle :=
  { probeErr := false, versionErr := false, mainOutcome := OpenOutcome.ok,
    txnFail := fun _ => false }

/-- An attempt whose navigation fails. -/
def failNavAttempt : AttemptOracle :=
  { navFails := true, reloadFails := false, dbs := fun _ => allOkDb }

/-- An attempt in which everything succeeds. -/
def allOkAttempt : AttemptOracle :=
  { navFails := false, reloadFails := false, dbs := fun _ => allOkDb }

/-! ## The claims -/

/-- C3: when restoring a key of a store, `loadAuth` decodes the stored
string by attempting a JSON parse and keeping the raw string on parse
failure, then writes it supplying the explicit key exactly when the live
store has no key-path policy (the write ignores the dump key when the
store has one); in particular a plain non-JSON string value is restored
as that identical string under its dump key. -/
theorem claim3_decode_and_key_policy (st : ObjStore) (k k2 : List Char)
    (v : Json) (s : List Char) (w : Json) :
    (st.keyPath = none →
      ∃ st2, writeItem st k v = some st2 ∧
        klookup (IKey.str k) st2.records = some (decodeValue v)) ∧
    (st.keyPath.isSome → writeItem st k v = writeItem st k2 v) ∧
    (parse s = none → decodeValue (Json.str s) = Json.str s) ∧
    (parse s = some w → decodeValue (Json.str s) = w) ∧
    (st.keyPath = none → parse s = none →
      ∃ st2, writeItem st k (Json.str s) = some st2 ∧
        klookup (IKey.str k) st2.records = some (Json.str s)) := by
  have hdecn : ∀ (s2 : List Char), parse s2 = none →
      decodeValue (Json.str s2) = Json.str s2 := by
    intro s2 h
    simp [decodeValue, h]
  have hwrite : st.keyPath = none → ∀ v2 : Json,
      ∃ st2, writeItem st k v2 = some st2 ∧
        klookup (IKey.str k) st2.records = some (decodeValue v2) := by
    intro hkp v2
    simp only [writeItem, hkp, putRecord, Option.isSome_none, Bool.false_eq_true,
      if_false]
    exact ⟨_, rfl, by simp [klookup_upsert_eq]⟩
  refine ⟨fun hkp => hwrite hkp v, ?_, fun h => hdecn s h, ?_, ?_⟩
  · intro hkp
    obtain ⟨kp, hkp2⟩ := Option.isSome_iff_exists.mp hkp
    simp [writeItem, hkp2]
  · intro h
    simp [decodeValue, h]
  · intro hkp h
    obtain ⟨st2, h1, h2⟩ := hwrite hkp (Json.str s)
    exact ⟨st2, h1, by rw [h2, hdecn s h]⟩

/-- Witness for C3 at a concrete store and the non-JSON string `hello`. -/
theorem claim3_decode_and_key_policy_witness :
    (ObjStore.mk none false 1 []).keyPath = none ∧
    parse "hello".toList = none ∧
    ∃ st2, writeItem (ObjStore.mk none false 1 []) "k".toList
        (Json.str "hello".toList) = some st2 ∧
      klookup (IKey.str "k".toList) st2.records = some (Json.str "hello".toList) :=
  ⟨rfl, rfl,
    (claim3_decode_and_key_policy (ObjStore.mk none false 1 []) "k".toList
      "k2".toList Json.null "hello".toList Json.null).2.2.2.2 rfl rfl⟩

/-- C4: if every restore attempt fails (here: navigation fails every
time), `loadAuth` makes exactly 3 attempts with a fixed 500 ms delay
between consecutive attempts, and then raises the retries-exhausted error
rather than the underlying per-attempt error; and any attempt whose
reload completes terminates the loop at once with success. -/
theorem claim4_retry_bound (idbs : List (List Char × List Char))
    (os : Nat → AttemptOracle) (env : Env) :
    ((∀ i, (os i).navFails = true) →
      loadAuthModel idbs os env =
        { result := Except.error exhaustedMsg, attempts := 3, delays := [500, 500] } ∧
      exhaustedMsg ≠ navErrorMsg) ∧
    (∀ (j r : Nat) (env2 e2 : Env),
      (attemptRun (os j) idbs env2).1 = Except.ok e2 →
      loadGo idbs os j (r + 1) env2 =
        { result := Except.ok e2, attempts := 1, delays := [] }) := by
  constructor
  · intro h
    have hrun : ∀ i env2, attemptRun (os i) idbs env2 =
        (Except.error navErrorMsg, env2) := by
      intro i env2
      simp [attemptRun, h i]
    refine ⟨?_, by decide⟩
    show loadGo idbs os 0 3 env = _
    simp only [loadGo, hrun]
    rfl
  · intro j r env2 e2 h
    rcases hA : attemptRun (os j) idbs env2 with ⟨res, envx⟩
    rw [hA] at h
    simp only at h
    subst h
    rw [loadGo, hA]

theorem openReqs_of_created_map (name kp : List Char) (ai : Bool)
    (ns : List (List Char)) :
    openReqs (ns.map (fun n => Ev.storeCreated name n kp ai)) = [] := by
  induction ns with
  | nil => rfl
  | cons n rest ih => simpa [openReqs, List.filterMap_cons] using ih

theorem createdStores_of_created_map (name kp : List Char) (ai : Bool)
    (ns : List (List Char)) :
    createdStores (ns.map (fun n => Ev.storeCreated name n kp ai)) =
      ns.map (fun n => (name, n, kp, ai)) := by
  induction ns with
  | nil => rfl
  | cons n rest ih => simpa [createdStores, List.filterMap_cons] using ih

/-- C10: if the probe open of a database errors, restore treats that
database as having no schema drift — the drift check resolves to false
and it proceeds to a plain version-less open (no upgrade, no store
creation, attempt continues) instead of aborting; and if the version-read
open errors on the upgrade path, the current version is taken to be 1, so
the upgrade open is attempted at exactly version 2. -/
theorem claim10_error_defaults (o : DbOracle) (name dumpStr : List Char)
    (s : EngineState) (dump : Json)
    (hparse : parse dumpStr = some dump) (hm : o.mainOutcome = OpenOutcome.ok) :
    (o.probeErr = true →
      openReqs (restoreDb o name dumpStr s).1.trace =
        openReqs s.trace ++ [(name, none), (name, none)] ∧
      createdStores (restoreDb o name dumpStr s).1.trace = createdStores s.trace ∧
      (restoreDb o name dumpStr s).2 = true) ∧
    (o.probeErr = false → o.versionErr = true →
      ((objFromList (getFields dump)).map Prod.fst).filter
          (fun n => (alookup n (probedDb s.env name).stores).isNone) ≠ [] →
      openReqs (restoreDb o name dumpStr s).1.trace =
        openReqs s.trace ++ [(name, none), (name, none), (name, some 2)]) := by
  constructor
  · intro hp
    rw [restoreDb_probeErr_eq o name dumpStr s dump hparse hp hm]
    refine ⟨?_, ?_, rfl⟩
    · rw [(writePhase_openReqs o name (objFromList (getFields dump)) _).1]
      simp [openReqs_append, openReqs]
    · rw [(writePhase_openReqs o name (objFromList (getFields dump)) _).2.1]
      simp [createdStores_append, createdStores]
  · intro hp hv hmiss
    rw [restoreDb_drift_versionErr_eq o name dumpStr s dump hparse hp hv hmiss]
    split
    · rw [(writePhase_openReqs o name (objFromList (getFields dump)) _).1,
        upgradeOpen_openReqs_shape]
      simp [openReqs_append, openReqs]
    · rw [upgradeOpen_openReqs_shape]
      simp [openReqs_append, openReqs]

/-- A dump with a single empty store `s`, for the concrete scenarios. -/
def demoDump : Json := Json.obj [("s".toList, Json.obj [])]

def demoDumpStr : List Char := stringify demoDump

/-- The initial engine state over an empty browser. -/
def s0 : EngineState := { env := [], nextCid := 0, trace := [] }

/-- Oracle whose probe open errors. -/
def probeErrDb : DbOracle :=
  { probeErr := true, versionErr := false, mainOutcome := OpenOutcome.ok,
    txnFail := fun _ => false }

/-- Oracle whose version-read open errors. -/
def versionErrDb : DbOracle :=
  { probeErr := false, versionErr := true, mainOutcome := OpenOutcome.ok,
    txnFail := fun _ => false }

/-- Witness for C10, both conjuncts, at the demo dump over an empty
browser. -/
theorem claim10_error_defaults_witness :
    (openReqs (restoreDb probeErrDb "d".toList demoDumpStr s0).1.trace =
      openReqs s0.trace ++ [("d".toList, none), ("d".toList, none)] ∧
      createdStores (restoreDb probeErrDb "d".toList demoDumpStr s0).1.trace =
        createdStores s0.trace ∧
      (restoreDb probeErrDb "d".toList demoDumpStr s0).2 = true) ∧
    openReqs (restoreDb versionErrDb "d".toList demoDumpStr s0).1.trace =
      openReqs s0.trace ++ [("d".toList, none), ("d".toList, none), ("d".toList, some 2)] :=
  ⟨(claim10_error_defaults probeErrDb "d".toList demoDumpStr s0 demoDump rfl rfl).1 rfl,
   (claim10_error_defaults versionErrDb "d".toList demoDumpStr s0 demoDump rfl rfl).2
     rfl rfl (by decide)⟩

/-- C2: for a database of the snapshot, restore first opens it without a
version request and computes the dump store names absent from the live
schema; when that set is non-empty it reads the current version, reopens
at exactly that version plus one, and creates in the upgrade callback
each missing store with the synthetic auto-incrementing `id` key field;
when the set is empty it performs a version-less open and proceeds
directly to writing. -/
theorem claim2_probe_drift_upgrade (o : DbOracle) (name dumpStr : List Char)
    (s : EngineState) (dump : Json)
    (hparse : parse dumpStr = some dump) (hp : o.probeErr = false)
    (hv : o.versionErr = false) (hm : o.mainOutcome = OpenOutcome.ok) :
    (((objFromList (getFields dump)).map Prod.fst).filter
        (fun n => (alookup n (probedDb s.env name).stores).isNone) ≠ [] →
      openReqs (restoreDb o name dumpStr s).1.trace =
        openReqs s.trace ++ [(name, none), (name, none),
          (name, some ((probedDb s.env name).version + 1))] ∧
      createdStores (restoreDb o name dumpStr s).1.trace =
        createdStores s.trace ++
          (((objFromList (getFields dump)).map Prod.fst).filter
            (fun n => (alookup n (probedDb s.env name).stores).isNone)).map
            (fun n => (name, n, "id".toList, true)) ∧
      (restoreDb o name dumpStr s).2 = true) ∧
    (((objFromList (getFields dump)).map Prod.fst).filter
        (fun n => (alookup n (probedDb s.env name).stores).isNone) = [] →
      openReqs (restoreDb o name dumpStr s).1.trace =
        openReqs s.trace ++ [(name, none), (name, none)] ∧
      createdStores (restoreDb o name dumpStr s).1.trace = createdStores s.trace ∧
      (restoreDb o name dumpStr s).2 = true) := by
  constructor
  · intro hmiss
    rw [restoreDb_drift_eq o name dumpStr s dump hparse hp hv hm hmiss]
    rw [upgradeOpen_up_eq o hm name ((probedDb s.env name).version + 1)
      ((objFromList (getFields dump)).map Prod.fst)
      { env := aset s.env name (probedDb s.env name),
        nextCid := s.nextCid + 2,
        trace := s.trace ++ [Ev.openReq name none,
          Ev.openOk s.nextCid name OpenKind.probe, Ev.connClosed s.nextCid,
          Ev.openReq name none,
          Ev.openOk (s.nextCid + 1) name OpenKind.versionRead,
          Ev.connClosed (s.nextCid + 1)] }
      (probedDb s.env name) (alookup_aset_eq _ _ _) (by omega)]
    simp only [if_true]
    obtain ⟨hcm2, -, -⟩ := createMissing_spec name
      ((objFromList (getFields dump)).map Prod.fst)
      { probedDb s.env name with version := (probedDb s.env name).version + 1 } []
      (objFromList_keys_nodup (getFields dump))
    dsimp only at hcm2
    refine ⟨?_, ?_, by trivial⟩
    · rw [(writePhase_openReqs o name (objFromList (getFields dump)) _).1]
      dsimp only
      rw [hcm2, List.nil_append]
      simp only [openReqs_append, openReqs_of_created_map]
      simp [openReqs]
    · rw [(writePhase_openReqs o name (objFromList (getFields dump)) _).2.1]
      dsimp only
      rw [hcm2, List.nil_append]
      simp only [createdStores_append, createdStores_of_created_map]
      simp [createdStores]
  · intro hmiss
    rw [restoreDb_noDrift_eq o name dumpStr s dump hparse hp hm hmiss]
    refine ⟨?_, ?_, rfl⟩
    · rw [(writePhase_openReqs o name (objFromList (getFields dump)) _).1]
      simp [openReqs_append, openReqs]
    · rw [(writePhase_openReqs o name (objFromList (getFields dump)) _).2.1]
      simp [createdStores_append, createdStores]

/-- A browser that already has database `d` with an empty key-path-less
store `s`. -/
def demoDest : EngineState :=
  { env := [("d".toList,
      { version := 1, stores := [("s".toList, ObjStore.mk none false 1 [])] })],
    nextCid := 0, trace := [] }

/-- Witness for C2: the demo dump into an empty browser (store `s`
missing: upgrade to version 2, creating `s`), and into a browser that
already has the store (version-less open, nothing created). -/
theorem claim2_probe_drift_upgrade_witness :
    (openReqs (restoreDb allOkDb "d".toList demoDumpStr s0).1.trace =
      openReqs s0.trace ++ [("d".toList, none), ("d".toList, none),
        ("d".toList, some 2)] ∧
      createdStores (restoreDb allOkDb "d".toList demoDumpStr s0).1.trace =
        createdStores s0.trace ++ [("d".toList, "s".toList, "id".toList, true)] ∧
      (restoreDb allOkDb "d".toList demoDumpStr s0).2 = true) ∧
    (restoreDb allOkDb "d".toList demoDumpStr demoDest).2 = true ∧
    openReqs (restoreDb allOkDb "d".toList demoDumpStr demoDest).1.trace =
      [("d".toList, none), ("d".toList, none)] :=
  ⟨(claim2_probe_drift_upgrade allOkDb "d".toList demoDumpStr s0 demoDump
      rfl rfl rfl rfl).1 (by decide),
   ((claim2_probe_drift_upgrade allOkDb "d".toList demoDumpStr demoDest demoDump
      rfl rfl rfl rfl).2 (by decide)).2.2,
   ((claim2_probe_drift_upgrade allOkDb "d".toList demoDumpStr demoDest demoDump
      rfl rfl rfl rfl).2 (by decide)).1⟩

/-- Witness for C4: all-failing oracles exhaust the retries, and an
immediately-successful oracle stops after one attempt. -/
theorem claim4_retry_bound_witness :
    loadAuthModel [] (fun _ => failNavAttempt) [] =
      { result := Except.error exhaustedMsg, attempts := 3, delays := [500, 500] } ∧
    loadGo [] (fun _ => allOkAttempt) 0 (2 + 1) [] =
      { result := Except.ok [], attempts := 1, delays := [] } :=
  ⟨((claim4_retry_bound [] (fun _ => failNavAttempt) []).1 (fun _ => rfl)).1,
   (claim4_retry_bound [] (fun _ => allOkAttempt) []).2 0 2 [] [] rfl⟩

/-! ## C1, C6, C7, C8, C9: the counterexample scenarios

Each scenario was traced by hand against src/lib.ts; the theorems below
evaluate the model on it. -/

/-- A source store with no key path holding one string value under a
string key. -/
def c1SrcStore : ObjStore :=
  ObjStore.mk none false 1 [(IKey.str "k".toList, Json.str "a".toList)]

def c1SrcEnv : Env :=
  [("d".toList, { version := 1, stores := [("s".toList, c1SrcStore)] })]

/-- C1, counterexample: Capturing `c1SrcEnv` and restoring into an
*empty* destination succeeds (`true`), yet the restored store `s` is
empty: the upgrade path created it with `keyPath: "id"`, so the put of
the bare string value throws `DataError` and no key of the source
arrives. The key set `∅` differs from the source's `{"k"}`, refuting the
claim exactly on the spec's own empty-destination example. -/
theorem claim1_counterexample :
    (restoreAll (fun _ => allOkDb) (createAuthIdbs c1SrcEnv) s0).2 = true ∧
    storeRecords c1SrcEnv "d".toList "s".toList =
      some [(IKey.str "k".toList, Json.str "a".toList)] ∧
    storeRecords (restoreAll (fun _ => allOkDb) (createAuthIdbs c1SrcEnv) s0).1.env
      "d".toList "s".toList = some [] ∧
    (some [] : Option (List (IKey × Json))) ≠
      some [(IKey.str "k".toList, Json.str "a".toList)] :=
  ⟨rfl, rfl, rfl, by decide⟩

def c6SrcStore : ObjStore :=
  ObjStore.mk none false 1
    [(IKey.str "k".toList, Json.obj [("x".toList, Json.num 1)])]

def c6SrcEnv : Env :=
  [("d".toList, { version := 1, stores := [("s".toList, c6SrcStore)] })]

/-- The first restore of the `c6SrcEnv` capture into an empty browser. -/
def c6Once : EngineState × Bool :=
  restoreAll (fun _ => allOkDb) (createAuthIdbs c6SrcEnv) s0

/-- The second restore of the same capture into the state the first one
left behind. -/
def c6Twice : EngineState × Bool :=
  restoreAll (fun _ => allOkDb) (createAuthIdbs c6SrcEnv)
    { env := c6Once.1.env, nextCid := 0, trace := [] }

/-- C6, counterexample: Both restores succeed, but the second is not
a no-op: the store was created with `keyPath: "id", autoIncrement:
true`, so each restore injects a fresh generated key into the object it
writes, and the second restore adds a second record instead of
overwriting the first. -/
theorem claim6_counterexample :
    c6Once.2 = true ∧ c6Twice.2 = true ∧
    storeRecords c6Once.1.env "d".toList "s".toList =
      some [(IKey.num 1,
        Json.obj [("x".toList, Json.num 1), ("id".toList, Json.num 1)])] ∧
    storeRecords c6Twice.1.env "d".toList "s".toList =
      some [(IKey.num 1,
        Json.obj [("x".toList, Json.num 1), ("id".toList, Json.num 1)]),
       (IKey.num 2,
        Json.obj [("x".toList, Json.num 1), ("id".toList, Json.num 2)])] ∧
    c6Twice.1.env ≠ c6Once.1.env :=
  ⟨rfl, rfl, rfl, rfl, by decide⟩

/-- The value sitting in the destination before the C7 restore. -/
def c7PreVal : Json := Json.obj [("id".toList, Json.num 7), ("v".toList, Json.num 0)]

/-- The value the C7 dump carries under the unrelated dump key `"x"`. -/
def c7NewVal : Json := Json.obj [("id".toList, Json.num 7), ("v".toList, Json.num 2)]

def c7DestStore : ObjStore :=
  ObjStore.mk (some "id".toList) false 1 [(IKey.num 7, c7PreVal)]

def c7Dest : EngineState :=
  { env := [("d".toList,
      { version := 1, stores := [("s".toList, c7DestStore)] })],
    nextCid := 0, trace := [] }

def c7Snap : List (List Char × List Char) :=
  [("d".toList, stringify (Json.obj [("s".toList, Json.obj [("x".toList,
     Json.str (stringify c7NewVal))])]))]

/-- C7, counterexample: The dump's only key for store `s` is `"x"`,
and the pre-existing record's key `7` is not among the dump's keys; yet
after a successful restore the value at key `7` has changed from
`c7PreVal` to `c7NewVal`: the live store has `keyPath: "id"`, so the put
of the dump's value lands at its embedded `id` field, not at the dump
key, overwriting a key the dump never mentions. -/
theorem claim7_counterexample :
    dumpKeys c7Snap "d".toList "s".toList = ["x".toList] ∧
    IKey.num 7 ∉ (dumpKeys c7Snap "d".toList "s".toList).map (fun k => IKey.str k) ∧
    klookup (IKey.num 7) c7DestStore.records = some c7PreVal ∧
    (restoreAll (fun _ => allOkDb) c7Snap c7Dest).2 = true ∧
    (storeRecords (restoreAll (fun _ => allOkDb) c7Snap c7Dest).1.env
        "d".toList "s".toList).map (klookup (IKey.num 7)) = some (some c7NewVal) ∧
    c7NewVal ≠ c7PreVal :=
  ⟨rfl, by decide, rfl, rfl, rfl, by decide⟩

/-- C8, counterexample: A fully successful restore attempt of the
demo dump: the registry is *not* drained at the end — the main write
connection (cid 2) is still open, because the code never closes the
connection it writes through; only the probe and version-read
connections are closed. -/
theorem claim8_counterexample :
    (restoreAll (fun _ => allOkDb) [("d".toList, demoDumpStr)] s0).2 = true ∧
    openConnsAfter
        (restoreAll (fun _ => allOkDb) [("d".toList, demoDumpStr)] s0).1.trace =
      [(2, "d".toList, OpenKind.main)] ∧
    openConnsAfter
        (restoreAll (fun _ => allOkDb) [("d".toList, demoDumpStr)] s0).1.trace ≠ [] :=
  ⟨rfl, rfl, by decide⟩

/-- Oracle whose main (upgrade or version-less) open reports `blocked`. -/
def blockedDb : DbOracle :=
  { probeErr := false, versionErr := false, mainOutcome := OpenOutcome.blocked,
    txnFail := fun _ => false }

/-- C9, counterexample: When the main open is blocked, the engine
does not close any of its connections to unblock it: the attempt's trace
simply ends at the `openBlocked` event (the two earlier closes are the
ordinary probe/version-read closes that precede the blocked request) and
the restore rejects. No close is issued in response to the block, and
the open never completes. -/
theorem claim9_counterexample :
    (restoreDb blockedDb "d".toList demoDumpStr s0).2 = false ∧
    (restoreDb blockedDb "d".toList demoDumpStr s0).1.trace =
      [Ev.openReq "d".toList none, Ev.openOk 0 "d".toList OpenKind.probe,
       Ev.connClosed 0, Ev.openReq "d".toList none,
       Ev.openOk 1 "d".toList OpenKind.versionRead, Ev.connClosed 1,
       Ev.openReq "d".toList (some 2), Ev.openBlocked "d".toList] ∧
    (restoreDb blockedDb "d".toList demoDumpStr s0).1.trace.filter
        (fun e => match e with
          | Ev.openOk _ _ OpenKind.main => true
          | _ => false) = [] :=
  ⟨rfl, rfl, rfl⟩


/-- The probe phase only appends events to the trace. -/
theorem probePhase_trace_mono (o : DbOracle) (name : List Char)
    (names : List (List Char)) (s : EngineState) :
    ∃ evs, (probePhase o name names s).1.trace = s.trace ++ evs := by
  by_cases hp : o.probeErr
  · exact ⟨[Ev.openReq name none, Ev.openErr name], by simp [probePhase, hp]⟩
  · exact ⟨[Ev.openReq name none, Ev.openOk s.nextCid name OpenKind.probe,
      Ev.connClosed s.nextCid], by simp [probePhase, hp, doOpenNoVersion]⟩

/-- The version-read phase only appends events to the trace. -/
theorem versionPhase_trace_mono (o : DbOracle) (name : List Char)
    (s : EngineState) :
    ∃ evs, (versionPhase o name s).1.trace = s.trace ++ evs := by
  by_cases hv : o.versionErr
  · exact ⟨[Ev.openReq name none, Ev.openErr name], by simp [versionPhase, hv]⟩
  · exact ⟨[Ev.openReq name none, Ev.openOk s.nextCid name OpenKind.versionRead,
      Ev.connClosed s.nextCid], by simp [versionPhase, hv, doOpenNoVersion]⟩

/-- C9, amended: whenever the main open of a database's restore comes back
blocked — on the upgrade path or the version-less path alike — the engine
does not close anything to unblock it: the restore of that database
returns failure immediately and its trace simply ends at the
`openBlocked` event. (The code has no connection registry and installs no
`versionchange` handler; `onblocked` is wired straight to `reject`.) -/
theorem claim9_blocked_rejects (o : DbOracle) (name dumpStr : List Char)
    (s : EngineState) (d : Json) (hp : parse dumpStr = some d)
    (hm : o.mainOutcome = OpenOutcome.blocked) :
    (restoreDb o name dumpStr s).2 = false ∧
    ∃ t, (restoreDb o name dumpStr s).1.trace =
      s.trace ++ t ++ [Ev.openBlocked name] := by
  simp only [restoreDb, hp]
  rcases h1 : probePhase o name
      ((objFromList (getFields d)).map Prod.fst) s with ⟨s1, b⟩
  obtain ⟨e1, he1⟩ := probePhase_trace_mono o name
    ((objFromList (getFields d)).map Prod.fst) s
  rw [h1] at he1
  simp only at he1
  cases b with
  | true =>
      rcases h2 : versionPhase o name s1 with ⟨s2, ver⟩
      obtain ⟨e2, he2⟩ := versionPhase_trace_mono o name s1
      rw [h2] at he2
      simp only at he2
      simp only [h1, h2, upgradeOpen, hm, if_true]
      refine ⟨rfl, e1 ++ e2 ++ [Ev.openReq name (some (ver + 1))], ?_⟩
      simp [he1, he2]
  | false =>
      simp only [h1, plainOpen, hm]
      refine ⟨rfl, e1 ++ [Ev.openReq name none], ?_⟩
      simp [he1]

/-- Witness for C9, amended: the demo dump under a blocked main open. -/
theorem claim9_blocked_rejects_witness :
    (restoreDb blockedDb "d".toList demoDumpStr s0).2 = false ∧
    ∃ t, (restoreDb blockedDb "d".toList demoDumpStr s0).1.trace =
      s0.trace ++ t ++ [Ev.openBlocked "d".toList] :=
  claim9_blocked_rejects blockedDb "d".toList demoDumpStr s0 demoDump
    (parse_stringify demoDump) rfl


/-! ## C8: the connection-kind invariant the restore engine keeps -/

/-- Every connection still open after the trace is a main write
connection: the probe and version-read connections are always closed. -/
def mainOnly (t : List Ev) : Prop :=
  ∀ c ∈ openConnsAfter t, c.2.2 = OpenKind.main

theorem openConnsAfter_append_openOk (t : List Ev) (cid : Nat)
    (name : List Char) (k : OpenKind) :
    openConnsAfter (t ++ [Ev.openOk cid name k]) =
      openConnsAfter t ++ [(cid, name, k)] := by
  unfold openConnsAfter
  rw [List.foldl_append]
  rfl

theorem openConnsAfter_open_close (t : List Ev) (name : List Char)
    (cid : Nat) (k : OpenKind) :
    openConnsAfter (t ++ [Ev.openReq name none, Ev.openOk cid name k,
        Ev.connClosed cid]) =
      (openConnsAfter t).filter (fun c => c.1 ≠ cid) := by
  unfold openConnsAfter
  rw [List.foldl_append]
  simp only [List.foldl_cons, List.foldl_nil, List.filter_append]
  simp

theorem mainOnly_neutral (t evs : List Ev)
    (hn : ∀ e ∈ evs, connNeutral e = true) (h : mainOnly t) :
    mainOnly (t ++ evs) := by
  intro c hc
  rw [openConnsAfter_append_neutral evs t hn] at hc
  exact h c hc

theorem mainOnly_open_close (t : List Ev) (name : List Char) (cid : Nat)
    (k : OpenKind) (h : mainOnly t) :
    mainOnly (t ++ [Ev.openReq name none, Ev.openOk cid name k,
      Ev.connClosed cid]) := by
  intro c hc
  rw [openConnsAfter_open_close] at hc
  exact h c (List.mem_of_mem_filter hc)

theorem mainOnly_open_main (t evs : List Ev) (name : List Char) (cid : Nat)
    (hn : ∀ e ∈ evs, connNeutral e = true) (h : mainOnly t) :
    mainOnly (t ++ (evs ++ [Ev.openOk cid name OpenKind.main])) := by
  intro c hc
  rw [← List.append_assoc, openConnsAfter_append_openOk] at hc
  rcases List.mem_append.mp hc with hc | hc
  · rw [openConnsAfter_append_neutral evs t hn] at hc
    exact h c hc
  · rw [List.mem_singleton.mp hc]

theorem probePhase_mainOnly (o : DbOracle) (name : List Char)
    (names : List (List Char)) (s : EngineState) (h : mainOnly s.trace) :
    mainOnly (probePhase o name names s).1.trace := by
  by_cases hp : o.probeErr
  · simp only [probePhase, hp, if_true]
    exact mainOnly_neutral _ _ (by intro e he; fin_cases he <;> rfl) h
  · simp only [probePhase, hp, doOpenNoVersion, Bool.false_eq_true, if_false]
    simpa [List.append_assoc] using
      mainOnly_open_close s.trace name s.nextCid OpenKind.probe h

theorem versionPhase_mainOnly (o : DbOracle) (name : List Char)
    (s : EngineState) (h : mainOnly s.trace) :
    mainOnly (versionPhase o name s).1.trace := by
  by_cases hv : o.versionErr
  · simp only [versionPhase, hv, if_true]
    exact mainOnly_neutral _ _ (by intro e he; fin_cases he <;> rfl) h
  · simp only [versionPhase, hv, doOpenNoVersion, Bool.false_eq_true, if_false]
    simpa [List.append_assoc] using
      mainOnly_open_close s.trace name s.nextCid OpenKind.versionRead h

theorem mainOnly_upgrade_created (s : EngineState) (name : List Char)
    (rv : Nat) (names : List (List Char)) (db : IDB_DB)
    (h : mainOnly s.trace) :
    mainOnly (s.trace ++ Ev.openReq name (some rv) ::
      ((createMissing name names db []).2 ++
        [Ev.openOk s.nextCid name OpenKind.main])) := by
  obtain ⟨evs2, he, hmem⟩ := createMissing_events name names db []
  rw [he]
  have hn : ∀ e ∈ Ev.openReq name (some rv) :: evs2, connNeutral e = true := by
    intro e hmem2
    rcases List.mem_cons.mp hmem2 with rfl | hmem2
    · rfl
    · obtain ⟨sn, rfl⟩ := hmem e hmem2
      rfl
  simpa [List.append_assoc] using
    mainOnly_open_main s.trace (Ev.openReq name (some rv) :: evs2)
      name s.nextCid hn h

theorem upgradeOpen_mainOnly (o : DbOracle) (name : List Char) (rv : Nat)
    (names : List (List Char)) (s : EngineState) (h : mainOnly s.trace) :
    mainOnly (upgradeOpen o name rv names s).1.trace := by
  unfold upgradeOpen
  cases hm : o.mainOutcome with
  | err =>
      simpa using mainOnly_neutral s.trace
        [Ev.openReq name (some rv), Ev.openErr name]
        (by intro e he; fin_cases he <;> rfl) h
  | blocked =>
      simpa using mainOnly_neutral s.trace
        [Ev.openReq name (some rv), Ev.openBlocked name]
        (by intro e he; fin_cases he <;> rfl) h
  | ok =>
      simp only []
      split
      · simpa [List.append_assoc] using mainOnly_upgrade_created s name rv names _ h
      · split
        · simpa [List.append_assoc] using
            mainOnly_open_main s.trace [Ev.openReq name (some rv)]
              name s.nextCid (by intro e he; fin_cases he <;> rfl) h
        · simpa using mainOnly_neutral s.trace
            [Ev.openReq name (some rv), Ev.openErr name]
            (by intro e he; fin_cases he <;> rfl) h

theorem plainOpen_mainOnly (o : DbOracle) (name : List Char)
    (s : EngineState) (h : mainOnly s.trace) :
    mainOnly (plainOpen o name s).1.trace := by
  unfold plainOpen
  cases hm : o.mainOutcome with
  | err =>
      simpa using mainOnly_neutral s.trace
        [Ev.openReq name none, Ev.openErr name]
        (by intro e he; fin_cases he <;> rfl) h
  | blocked =>
      simpa using mainOnly_neutral s.trace
        [Ev.openReq name none, Ev.openBlocked name]
        (by intro e he; fin_cases he <;> rfl) h
  | ok =>
      simp only [doOpenNoVersion]
      simpa using
        mainOnly_open_main s.trace [Ev.openReq name none] name s.nextCid
          (by intro e he; fin_cases he <;> rfl) h

theorem writePhase_mainOnly (o : DbOracle) (n : List Char)
    (fs : List (List Char × Json)) (s : EngineState) (h : mainOnly s.trace) :
    mainOnly (writePhase o n fs s).trace := by
  intro c hc
  rw [(writePhase_openReqs o n fs s).2.2] at hc
  exact h c hc

theorem restoreDb_mainOnly (o : DbOracle) (name dumpStr : List Char)
    (s : EngineState) (h : mainOnly s.trace) :
    mainOnly (restoreDb o name dumpStr s).1.trace := by
  unfold restoreDb
  cases hp : parse dumpStr with
  | none => exact h
  | some d =>
      simp only []
      rcases h1 : probePhase o name
          ((objFromList (getFields d)).map Prod.fst) s with ⟨s1, b⟩
      have hs1 : mainOnly s1.trace := by
        have h2 := probePhase_mainOnly o name
          ((objFromList (getFields d)).map Prod.fst) s h
        rw [h1] at h2
        exact h2
      cases b with
      | false =>
          simp only [Bool.false_eq_true, if_false]
          rcases h2 : plainOpen o name s1 with ⟨s2, op⟩
          have hs2 : mainOnly s2.trace := by
            have h3 := plainOpen_mainOnly o name s1 hs1
            rw [h2] at h3
            exact h3
          cases op with
          | false => exact hs2
          | true => exact writePhase_mainOnly o name _ s2 hs2
      | true =>
          simp only [if_true]
          rcases h2 : versionPhase o name s1 with ⟨s2, ver⟩
          have hs2 : mainOnly s2.trace := by
            have h3 := versionPhase_mainOnly o name s1 hs1
            rw [h2] at h3
            exact h3
          rcases h3 : upgradeOpen o name (ver + 1)
              ((objFromList (getFields d)).map Prod.fst) s2 with ⟨s3, op⟩
          have hs3 : mainOnly s3.trace := by
            have h4 := upgradeOpen_mainOnly o name (ver + 1)
              ((objFromList (getFields d)).map Prod.fst) s2 hs2
            rw [h3] at h4
            exact h4
          cases op with
          | false => exact hs3
          | true => exact writePhase_mainOnly o name _ s3 hs3

theorem restoreAll_mainOnly (os : List Char → DbOracle) :
    ∀ (idbs : List (List Char × List Char)) (s : EngineState),
      mainOnly s.trace → mainOnly (restoreAll os idbs s).1.trace := by
  intro idbs
  induction idbs with
  | nil => intro s h; exact h
  | cons p rest ih =>
      intro s h
      rcases p with ⟨n, d⟩
      simp only [restoreAll]
      rcases hr : restoreDb (os n) n d s with ⟨s2, b⟩
      have hs2 : mainOnly s2.trace := by
        have h2 := restoreDb_mainOnly (os n) n d s h
        rw [hr] at h2
        exact h2
      cases b with
      | false => exact hs2
      | true => exact ih s2 hs2

/-- C8, amended: at the end of a restore attempt — over any oracles, any
snapshot and any starting browser contents — every connection still open
is a *main* write connection. The probe and version-read connections are
always closed, but the write connections are never closed: the registry
is not drained, refuting the claim as stated, and this is the invariant
that actually holds. -/
theorem claim8_conns_main_only (os : List Char → DbOracle)
    (idbs : List (List Char × List Char)) (env : Env)
    (c : Nat × List Char × OpenKind)
    (hc : c ∈ openConnsAfter
      (restoreAll os idbs { env := env, nextCid := 0, trace := [] }).1.trace) :
    c.2.2 = OpenKind.main :=
  restoreAll_mainOnly os idbs { env := env, nextCid := 0, trace := [] }
    (by intro x hx; simp [openConnsAfter] at hx) c hc

/-- Witness for C8, amended: the main connection (cid 2) left open by the
demo restore is of main kind. -/
theorem claim8_conns_main_only_witness :
    (2, "d".toList, OpenKind.main) ∈ openConnsAfter
      (restoreAll (fun _ => allOkDb) [("d".toList, demoDumpStr)]
        { env := [], nextCid := 0, trace := [] }).1.trace ∧
    (2, "d".toList, OpenKind.main).2.2 = OpenKind.main :=
  ⟨by decide,
   claim8_conns_main_only (fun _ => allOkDb) [("d".toList, demoDumpStr)]
     [] (2, "d".toList, OpenKind.main) (by decide)⟩


/-! ## C7: the no-deletion invariant -/

/-- Key `k` of store `sn` of database `dn` holds some record. -/
def keyAlive (dn sn : List Char) (k : IKey) (env : Env) : Prop :=
  ∃ st, lookupStore env dn sn = some st ∧ (klookup k st.records).isSome = true

/-- A successful `put` never removes a key: every success branch is an
upsert. -/
theorem putRecord_keeps_key (st st2 : ObjStore) (v : Json) (key : Option IKey)
    (k : IKey) (h : putRecord st v key = some st2)
    (hk : (klookup k st.records).isSome = true) :
    (klookup k st2.records).isSome = true := by
  unfold putRecord at h
  split at h
  · split at h
    · exact Option.noConfusion h
    · split at h
      · split at h
        · split at h
          · injection h with h2
            subst h2
            exact klookup_upsert_isSome _ _ _ _ hk
          · exact Option.noConfusion h
        · split at h
          · injection h with h2
            subst h2
            exact klookup_upsert_isSome _ _ _ _ hk
          · exact Option.noConfusion h
      · exact Option.noConfusion h
  · split at h
    · injection h with h2
      subst h2
      exact klookup_upsert_isSome _ _ _ _ hk
    · split at h
      · injection h with h2
        subst h2
        exact klookup_upsert_isSome _ _ _ _ hk
      · exact Option.noConfusion h

theorem writeItems_keeps_key (k : IKey) :
    ∀ (items : List (List Char × Json)) (st : ObjStore),
      (klookup k st.records).isSome = true →
      (klookup k (writeItems st items).1.records).isSome = true := by
  intro items
  induction items with
  | nil => intro st hk; exact hk
  | cons p rest ih =>
      intro st hk
      obtain ⟨k2, v⟩ := p
      simp only [writeItems]
      cases hw : writeItem st k2 v with
      | none => exact hk
      | some st2 =>
          apply ih st2
          cases hkp : st.keyPath.isSome with
          | true =>
              have hw2 : putRecord st (decodeValue v) none = some st2 := by
                simpa [writeItem, hkp] using hw
              exact putRecord_keeps_key st st2 _ _ k hw2 hk
          | false =>
              have hw2 : putRecord st (decodeValue v) (some (IKey.str k2)) =
                  some st2 := by
                simpa [writeItem, hkp] using hw
              exact putRecord_keeps_key st st2 _ _ k hw2 hk

theorem processStore_keeps (o : DbOracle) (n sn2 : List Char)
    (items : List (List Char × Json)) (s : EngineState)
    (dn sn : List Char) (k : IKey) (h : keyAlive dn sn k s.env) :
    keyAlive dn sn k (processStore o n sn2 items s).env := by
  unfold processStore
  split
  · exact h
  · rename_i db hdb
    split
    · exact h
    · rename_i st hst
      split
      · exact h
      · have hmain : keyAlive dn sn k (aset s.env n
            { db with stores := aset db.stores sn2 (writeItems st items).1 }) := by
          obtain ⟨st0, hl, hk⟩ := h
          by_cases hdneq : dn = n
          · subst hdneq
            simp only [lookupStore, hdb] at hl
            by_cases hsneq : sn = sn2
            · subst hsneq
              rw [hst] at hl
              injection hl with hl2
              subst hl2
              refine ⟨(writeItems st items).1, ?_,
                writeItems_keeps_key k items st hk⟩
              simp only [lookupStore, alookup_aset_eq]
            · refine ⟨st0, ?_, hk⟩
              simp only [lookupStore, alookup_aset_eq]
              rw [alookup_aset_ne _ _ _ _ hsneq]
              exact hl
          · refine ⟨st0, ?_, hk⟩
            simp only [lookupStore]
            rw [alookup_aset_ne _ _ _ _ hdneq]
            exact hl
        by_cases hr : (writeItems st items).2 = true <;> simp [hr] <;> exact hmain

theorem writePhase_keeps (o : DbOracle) (n : List Char)
    (fs : List (List Char × Json)) (s : EngineState)
    (dn sn : List Char) (k : IKey) (h : keyAlive dn sn k s.env) :
    keyAlive dn sn k (writePhase o n fs s).env := by
  unfold writePhase
  generalize fs.map Prod.fst = names
  induction names generalizing s with
  | nil => exact h
  | cons sn2 rest ih =>
      simp only [List.foldl_cons]
      exact ih (processStore o n sn2 (storeItems fs sn2) s)
        (processStore_keeps o n sn2 (storeItems fs sn2) s dn sn k h)

theorem keyAlive_probed (env : Env) (name dn sn : List Char) (k : IKey)
    (h : keyAlive dn sn k env) :
    keyAlive dn sn k (aset env name (probedDb env name)) := by
  cases hdb : alookup name env with
  | some db =>
      have hpr : probedDb env name = db := by simp [probedDb, hdb]
      rw [hpr, aset_of_alookup_eq env name db hdb]
      exact h
  | none =>
      obtain ⟨st0, hl, hk⟩ := h
      refine ⟨st0, ?_, hk⟩
      rw [aset_of_alookup_none env name _ hdb]
      by_cases hdneq : dn = name
      · subst hdneq
        exfalso
        simp only [lookupStore, hdb] at hl
        exact Option.noConfusion hl
      · simp only [lookupStore]
        rw [alookup_append_single_ne env name dn _ hdneq]
        exact hl

theorem probePhase_keeps (o : DbOracle) (name : List Char)
    (names : List (List Char)) (s : EngineState)
    (dn sn : List Char) (k : IKey) (h : keyAlive dn sn k s.env) :
    keyAlive dn sn k (probePhase o name names s).1.env := by
  by_cases hp : o.probeErr
  · simp only [probePhase, hp, if_true]
    exact h
  · simp only [probePhase, hp, Bool.false_eq_true, if_false, doOpenNoVersion]
    exact keyAlive_probed s.env name dn sn k h

theorem versionPhase_keeps (o : DbOracle) (name : List Char) (s : EngineState)
    (dn sn : List Char) (k : IKey) (h : keyAlive dn sn k s.env) :
    keyAlive dn sn k (versionPhase o name s).1.env := by
  by_cases hv : o.versionErr
  · simp only [versionPhase, hv, if_true]
    exact h
  · simp only [versionPhase, hv, Bool.false_eq_true, if_false, doOpenNoVersion]
    exact keyAlive_probed s.env name dn sn k h

theorem plainOpen_keeps (o : DbOracle) (name : List Char) (s : EngineState)
    (dn sn : List Char) (k : IKey) (h : keyAlive dn sn k s.env) :
    keyAlive dn sn k (plainOpen o name s).1.env := by
  unfold plainOpen
  cases hm : o.mainOutcome with
  | err => exact h
  | blocked => exact h
  | ok =>
      simp only [doOpenNoVersion]
      exact keyAlive_probed s.env name dn sn k h

/-- The upgrade callback only appends stores, so a store the schema
already has keeps its entry. -/
theorem createMissing_keeps_store (dn : List Char) :
    ∀ (names : List (List Char)) (db : IDB_DB) (evs : List Ev)
      (sn : List Char) (st : ObjStore), alookup sn db.stores = some st →
      alookup sn (createMissing dn names db evs).1.stores = some st := by
  intro names
  induction names with
  | nil => intro db evs sn st h; simpa [createMissing] using h
  | cons n ns ih =>
      intro db evs sn st h
      cases hl : alookup n db.stores with
      | some st2 =>
          have hstep : createMissing dn (n :: ns) db evs =
              createMissing dn ns db evs := by
            simp [createMissing, List.foldl_cons, hl]
          rw [hstep]
          exact ih db evs sn st h
      | none =>
          have hstep : createMissing dn (n :: ns) db evs =
              createMissing dn ns
                { db with stores := db.stores ++ [(n, freshStore)] }
                (evs ++ [Ev.storeCreated dn n "id".toList true]) := by
            simp [createMissing, List.foldl_cons, hl]
          rw [hstep]
          exact ih _ _ sn st
            (alookup_append_of_some db.stores [(n, freshStore)] sn st h)

theorem upgradeOpen_keeps (o : DbOracle) (name : List Char) (rv : Nat)
    (names : List (List Char)) (s : EngineState)
    (dn sn : List Char) (k : IKey) (h : keyAlive dn sn k s.env) :
    keyAlive dn sn k (upgradeOpen o name rv names s).1.env := by
  unfold upgradeOpen
  cases hm : o.mainOutcome with
  | err => exact h
  | blocked => exact h
  | ok =>
      simp only []
      cases hdb : alookup name s.env with
      | some db =>
          simp only [hdb]
          split
          · obtain ⟨st0, hl, hk⟩ := h
            by_cases hdneq : dn = name
            · subst hdneq
              simp only [lookupStore, hdb] at hl
              refine ⟨st0, ?_, hk⟩
              simp only [lookupStore, alookup_aset_eq]
              exact createMissing_keeps_store dn names _ [] sn st0 hl
            · refine ⟨st0, ?_, hk⟩
              simp only [lookupStore]
              rw [alookup_aset_ne _ _ _ _ hdneq]
              exact hl
          · split
            · rw [aset_of_alookup_eq s.env name db hdb]
              exact h
            · exact h
      | none =>
          simp only [hdb]
          obtain ⟨st0, hl, hk⟩ := h
          have hdneq : dn ≠ name := by
            intro he
            subst he
            simp only [lookupStore, hdb] at hl
            exact Option.noConfusion hl
          split
          · refine ⟨st0, ?_, hk⟩
            rw [aset_of_alookup_none s.env name _ hdb]
            simp only [lookupStore]
            rw [alookup_append_single_ne s.env name dn _ hdneq]
            exact hl
          · split
            · refine ⟨st0, ?_, hk⟩
              rw [aset_of_alookup_none s.env name _ hdb]
              simp only [lookupStore]
              rw [alookup_append_single_ne s.env name dn _ hdneq]
              exact hl
            · exact ⟨st0, hl, hk⟩

theorem restoreDb_keeps (o : DbOracle) (name dumpStr : List Char)
    (s : EngineState) (dn sn : List Char) (k : IKey)
    (h : keyAlive dn sn k s.env) :
    keyAlive dn sn k (restoreDb o name dumpStr s).1.env := by
  unfold restoreDb
  cases hp : parse dumpStr with
  | none => exact h
  | some d =>
      simp only []
      rcases h1 : probePhase o name
          ((objFromList (getFields d)).map Prod.fst) s with ⟨s1, b⟩
      have hs1 : keyAlive dn sn k s1.env := by
        have h2 := probePhase_keeps o name
          ((objFromList (getFields d)).map Prod.fst) s dn sn k h
        rw [h1] at h2
        exact h2
      cases b with
      | false =>
          simp only [Bool.false_eq_true, if_false]
          rcases h2 : plainOpen o name s1 with ⟨s2, op⟩
          have hs2 : keyAlive dn sn k s2.env := by
            have h3 := plainOpen_keeps o name s1 dn sn k hs1
            rw [h2] at h3
            exact h3
          cases op with
          | false => exact hs2
          | true => exact writePhase_keeps o name _ s2 dn sn k hs2
      | true =>
          simp only [if_true]
          rcases h2 : versionPhase o name s1 with ⟨s2, ver⟩
          have hs2 : keyAlive dn sn k s2.env := by
            have h3 := versionPhase_keeps o name s1 dn sn k hs1
            rw [h2] at h3
            exact h3
          rcases h3 : upgradeOpen o name (ver + 1)
              ((objFromList (getFields d)).map Prod.fst) s2 with ⟨s3, op⟩
          have hs3 : keyAlive dn sn k s3.env := by
            have h4 := upgradeOpen_keeps o name (ver + 1)
              ((objFromList (getFields d)).map Prod.fst) s2 dn sn k hs2
            rw [h3] at h4
            exact h4
          cases op with
          | false => exact hs3
          | true => exact writePhase_keeps o name _ s3 dn sn k hs3

theorem restoreAll_keeps (os : List Char → DbOracle) :
    ∀ (idbs : List (List Char × List Char)) (s : EngineState)
      (dn sn : List Char) (k : IKey), keyAlive dn sn k s.env →
      keyAlive dn sn k (restoreAll os idbs s).1.env := by
  intro idbs
  induction idbs with
  | nil => intro s dn sn k h; exact h
  | cons p rest ih =>
      intro s dn sn k h
      rcases p with ⟨n, d⟩
      simp only [restoreAll]
      rcases hr : restoreDb (os n) n d s with ⟨s2, b⟩
      have hs2 : keyAlive dn sn k s2.env := by
        have h2 := restoreDb_keeps (os n) n d s dn sn k h
        rw [hr] at h2
        exact h2
      cases b with
      | false => exact hs2
      | true => exact ih s2 dn sn k hs2

/-- C7, amended: restore never *deletes* a key — any key holding a record
in any destination store before restore still holds a record after, over
all oracles, snapshots and destinations (every write path is an upsert,
transaction failures roll back, store creation only appends). The
"unchanged" half of the claim is false: a key-path store can overwrite a
pre-existing key the dump never mentions, as the counterexample shows. -/
theorem claim7_no_delete (os : List Char → DbOracle)
    (idbs : List (List Char × List Char)) (s : EngineState)
    (dn sn : List Char) (k : IKey) (st : ObjStore)
    (h1 : lookupStore s.env dn sn = some st)
    (h2 : (klookup k st.records).isSome = true) :
    ∃ st2, lookupStore (restoreAll os idbs s).1.env dn sn = some st2 ∧
      (klookup k st2.records).isSome = true :=
  restoreAll_keeps os idbs s dn sn k ⟨st, h1, h2⟩

/-- Witness for C7, amended: the pre-existing key `7` of the C7
counterexample scenario survives the restore (though its value
changes). -/
theorem claim7_no_delete_witness :
    ∃ st2, lookupStore
        (restoreAll (fun _ => allOkDb) c7Snap c7Dest).1.env
        "d".toList "s".toList = some st2 ∧
      (klookup (IKey.num 7) st2.records).isSome = true :=
  claim7_no_delete (fun _ => allOkDb) c7Snap c7Dest
    "d".toList "s".toList (IKey.num 7) c7DestStore rfl rfl


/-! ## C6: idempotence of the per-database restore over key-path-free
stores -/

/-- The record-level effect of one store's write loop when the live store
has no key path: each dump key `k` with value `v` is upserted at
`IKey.str k` holding the decoded value. -/
def kvUpserts (rs : List (IKey × Json)) (items : List (List Char × Json)) :
    List (IKey × Json) :=
  items.foldl (fun a p => upsert a (IKey.str p.1) (decodeValue p.2)) rs

theorem writeItems_keyPath_none :
    ∀ (items : List (List Char × Json)) (st : ObjStore), st.keyPath = none →
      writeItems st items =
        ({ st with records := kvUpserts st.records items }, true) := by
  intro items
  induction items with
  | nil => intro st h; rfl
  | cons p rest ih =>
      intro st h
      obtain ⟨k, v⟩ := p
      have hw : writeItem st k v = some
          { st with records := upsert st.records (IKey.str k) (decodeValue v) } := by
        simp [writeItem, h, putRecord, bumpGen]
      simp only [writeItems, hw]
      rw [ih { st with records := upsert st.records (IKey.str k) (decodeValue v) } h]
      rfl

theorem upsert_self : ∀ (rs : List (IKey × Json)) (k : IKey) (v : Json),
    klookup k rs = some v → upsert rs k v = rs := by
  intro rs
  induction rs with
  | nil => intro k v h; simp [klookup] at h
  | cons p rest ih =>
      intro k v h
      obtain ⟨k2, v2⟩ := p
      by_cases h2 : k2 = k
      · subst h2
        simp only [klookup, if_true, Option.some.injEq] at h
        subst h
        simp [upsert]
      · simp only [klookup, if_neg h2] at h
        simp [upsert, h2, ih _ _ h]

theorem kvUpserts_klookup_ne (k : IKey) :
    ∀ (items : List (List Char × Json)) (rs : List (IKey × Json)),
      (∀ p ∈ items, IKey.str p.1 ≠ k) →
      klookup k (kvUpserts rs items) = klookup k rs := by
  intro items
  induction items with
  | nil => intro rs _; rfl
  | cons p rest ih =>
      intro rs hne
      obtain ⟨k2, v⟩ := p
      show klookup k (kvUpserts (upsert rs (IKey.str k2) (decodeValue v)) rest) =
        klookup k rs
      rw [ih _ (fun q hq => hne q (List.mem_cons_of_mem _ hq))]
      exact klookup_upsert_ne rs (IKey.str k2) k (decodeValue v)
        (Ne.symm (hne (k2, v) (List.mem_cons_self _ _)))

theorem kvUpserts_idem :
    ∀ (items : List (List Char × Json)) (rs : List (IKey × Json)),
      (items.map Prod.fst).Nodup →
      kvUpserts (kvUpserts rs items) items = kvUpserts rs items := by
  intro items
  induction items with
  | nil => intro rs _; rfl
  | cons p rest ih =>
      intro rs hnd
      obtain ⟨k, v⟩ := p
      rw [List.map_cons, List.nodup_cons] at hnd
      obtain ⟨hk, hrest⟩ := hnd
      have hne : ∀ q ∈ rest, IKey.str q.1 ≠ IKey.str k := by
        intro q hq hcontra
        injection hcontra with hqe
        apply hk
        rw [← hqe]
        exact List.mem_map.mpr ⟨q, hq, rfl⟩
      have hA : klookup (IKey.str k)
          (kvUpserts (upsert rs (IKey.str k) (decodeValue v)) rest) =
          some (decodeValue v) := by
        rw [kvUpserts_klookup_ne (IKey.str k) rest _ hne]
        exact klookup_upsert_eq _ _ _
      show kvUpserts (upsert
          (kvUpserts (upsert rs (IKey.str k) (decodeValue v)) rest)
          (IKey.str k) (decodeValue v)) rest =
        kvUpserts (upsert rs (IKey.str k) (decodeValue v)) rest
      rw [upsert_self _ _ _ hA]
      exact ih (upsert rs (IKey.str k) (decodeValue v)) hrest

/-- The stores-list effect of the store loop: each named store that
exists gets its write-loop upserts applied in place. -/
def updStores (items : List Char → List (List Char × Json)) :
    List (List Char × ObjStore) → List (List Char) →
      List (List Char × ObjStore)
  | stores, [] => stores
  | stores, sn :: rest =>
      updStores items
        (match alookup sn stores with
         | some st =>
             aset stores sn { st with records := kvUpserts st.records (items sn) }
         | none => stores) rest

theorem updStores_frame (items : List Char → List (List Char × Json)) :
    ∀ (names : List (List Char)) (stores : List (List Char × ObjStore))
      (sn : List Char), sn ∉ names →
      alookup sn (updStores items stores names) = alookup sn stores := by
  intro names
  induction names with
  | nil => intro stores sn _; rfl
  | cons n rest ih =>
      intro stores sn hmem
      have hsn : sn ≠ n := fun he => hmem (he ▸ List.mem_cons_self n rest)
      have hrest : sn ∉ rest := fun hr => hmem (List.mem_cons_of_mem n hr)
      cases hl : alookup n stores with
      | some st =>
          show alookup sn (updStores items (match alookup n stores with
            | some st2 =>
                aset stores n { st2 with records := kvUpserts st2.records (items n) }
            | none => stores) rest) = alookup sn stores
          rw [hl]
          rw [ih _ sn hrest]
          exact alookup_aset_ne stores n sn _ hsn
      | none =>
          show alookup sn (updStores items (match alookup n stores with
            | some st2 =>
                aset stores n { st2 with records := kvUpserts st2.records (items n) }
            | none => stores) rest) = alookup sn stores
          rw [hl]
          exact ih stores sn hrest

theorem updStores_keyPath (items : List Char → List (List Char × Json)) :
    ∀ (names : List (List Char)) (stores : List (List Char × ObjStore))
      (sn : List Char) (st : ObjStore), alookup sn stores = some st →
      ∃ st2, alookup sn (updStores items stores names) = some st2 ∧
        st2.keyPath = st.keyPath := by
  intro names
  induction names with
  | nil => intro stores sn st h; exact ⟨st, h, rfl⟩
  | cons n rest ih =>
      intro stores sn st h
      cases hl : alookup n stores with
      | none =>
          show ∃ st2, alookup sn (updStores items (match alookup n stores with
            | some st3 =>
                aset stores n { st3 with records := kvUpserts st3.records (items n) }
            | none => stores) rest) = some st2 ∧ st2.keyPath = st.keyPath
          rw [hl]
          exact ih stores sn st h
      | some stn =>
          show ∃ st2, alookup sn (updStores items (match alookup n stores with
            | some st3 =>
                aset stores n { st3 with records := kvUpserts st3.records (items n) }
            | none => stores) rest) = some st2 ∧ st2.keyPath = st.keyPath
          rw [hl]
          by_cases hsn : sn = n
          · subst hsn
            rw [h] at hl
            injection hl with hl2
            subst hl2
            obtain ⟨st2, h2, hkp⟩ := ih
              (aset stores sn { st with records := kvUpserts st.records (items sn) })
              sn { st with records := kvUpserts st.records (items sn) }
              (alookup_aset_eq _ _ _)
            exact ⟨st2, h2, hkp⟩
          · obtain ⟨st2, h2, hkp⟩ := ih
              (aset stores n { stn with records := kvUpserts stn.records (items n) })
              sn st (by rw [alookup_aset_ne _ _ _ _ hsn]; exact h)
            exact ⟨st2, h2, hkp⟩

theorem updStores_idem (items : List Char → List (List Char × Json))
    (hitems : ∀ sn, ((items sn).map Prod.fst).Nodup) :
    ∀ (names : List (List Char)) (stores : List (List Char × ObjStore)),
      names.Nodup → (∀ sn ∈ names, ∃ st, alookup sn stores = some st) →
      updStores items (updStores items stores names) names =
        updStores items stores names := by
  intro names
  induction names with
  | nil => intro stores _ _; rfl
  | cons n rest ih =>
      intro stores hnd hex
      rw [List.nodup_cons] at hnd
      obtain ⟨hn, hrest⟩ := hnd
      obtain ⟨st1, hst1⟩ := hex n (List.mem_cons_self n rest)
      have hstep : updStores items stores (n :: rest) =
          updStores items (aset stores n
            { st1 with records := kvUpserts st1.records (items n) }) rest := by
        show updStores items (match alookup n stores with
          | some st3 =>
              aset stores n { st3 with records := kvUpserts st3.records (items n) }
          | none => stores) rest = _
        rw [hst1]
      have hAn : alookup n (updStores items (aset stores n
          { st1 with records := kvUpserts st1.records (items n) }) rest) =
          some { st1 with records := kvUpserts st1.records (items n) } := by
        rw [updStores_frame items rest _ n hn]
        exact alookup_aset_eq _ _ _
      have houter : updStores items (updStores items (aset stores n
          { st1 with records := kvUpserts st1.records (items n) }) rest)
            (n :: rest) =
          updStores items (aset (updStores items (aset stores n
            { st1 with records := kvUpserts st1.records (items n) }) rest) n
            { st1 with records := kvUpserts (kvUpserts st1.records (items n)) (items n) }) rest := by
        show updStores items (match alookup n (updStores items (aset stores n
          { st1 with records := kvUpserts st1.records (items n) }) rest) with
          | some st3 =>
              aset (updStores items (aset stores n
                { st1 with records := kvUpserts st1.records (items n) }) rest) n
                { st3 with records := kvUpserts st3.records (items n) }
          | none => updStores items (aset stores n
              { st1 with records := kvUpserts st1.records (items n) }) rest)
          rest = _
        rw [hAn]
      rw [hstep, houter, kvUpserts_idem (items n) st1.records (hitems n),
        aset_of_alookup_eq _ _ _ hAn]
      exact ih (aset stores n
          { st1 with records := kvUpserts st1.records (items n) }) hrest
        (by
          intro sn hsn
          have hne : sn ≠ n := fun he => hn (he ▸ hsn)
          rw [alookup_aset_ne _ _ _ _ hne]
          exact hex sn (List.mem_cons_of_mem n hsn))

theorem processStore_closed (n sn : List Char)
    (items : List (List Char × Json)) (s : EngineState) (db : IDB_DB)
    (st : ObjStore) (hdb : alookup n s.env = some db)
    (hst : alookup sn db.stores = some st) (hkp : st.keyPath = none) :
    processStore allOkDb n sn items s =
      { s with
        env := aset s.env n
          { db with
            stores := aset db.stores sn
              { st with records := kvUpserts st.records items } } } := by
  simp [processStore, hdb, hst, writeItems_keyPath_none items st hkp, allOkDb]

theorem writePhase_closed (n : List Char)
    (dbFields : List (List Char × Json)) :
    ∀ (names : List (List Char)) (s : EngineState) (db : IDB_DB),
      alookup n s.env = some db →
      (∀ sn ∈ names, ∃ st, alookup sn db.stores = some st ∧
        st.keyPath = none) →
      names.foldl
          (fun s2 sn => processStore allOkDb n sn (storeItems dbFields sn) s2) s =
        { s with
          env := aset s.env n
            { db with stores := updStores (storeItems dbFields) db.stores names } } := by
  intro names
  induction names with
  | nil =>
      intro s db hdb _
      simp only [List.foldl_nil, updStores]
      show s = { s with env := aset s.env n db }
      rw [aset_of_alookup_eq _ _ _ hdb]
  | cons sn rest ih =>
      intro s db hdb hex
      obtain ⟨st, hst, hkp⟩ := hex sn (List.mem_cons_self sn rest)
      rw [List.foldl_cons,
        processStore_closed n sn (storeItems dbFields sn) s db st hdb hst hkp,
        ih _
          { db with
            stores := aset db.stores sn
              { st with records := kvUpserts st.records (storeItems dbFields sn) } }
          (alookup_aset_eq _ _ _)
          (by
            intro sn2 hsn2
            by_cases he : sn2 = sn
            · subst he
              exact ⟨{ st with records := kvUpserts st.records (storeItems dbFields sn2) },
                alookup_aset_eq _ _ _, hkp⟩
            · obtain ⟨st2, hst2, hkp2⟩ := hex sn2 (List.mem_cons_of_mem sn hsn2)
              exact ⟨st2, by rw [alookup_aset_ne _ _ _ _ he]; exact hst2, hkp2⟩)]
      have hupd : updStores (storeItems dbFields) db.stores (sn :: rest) =
          updStores (storeItems dbFields)
            (aset db.stores sn
              { st with records := kvUpserts st.records (storeItems dbFields sn) })
            rest := by
        show updStores (storeItems dbFields)
          (match alookup sn db.stores with
           | some st3 =>
               aset db.stores sn
                 { st3 with records := kvUpserts st3.records (storeItems dbFields sn) }
           | none => db.stores) rest = _
        rw [hst]
      rw [hupd]
      show { s with env := aset (aset s.env n _) n _ } = _
      rw [aset_aset]

theorem restoreDb_closed (name dumpStr : List Char) (s : EngineState)
    (d : Json) (hp : parse dumpStr = some d) (db : IDB_DB)
    (hdb : alookup name s.env = some db)
    (hex : ∀ sn ∈ (objFromList (getFields d)).map Prod.fst,
      ∃ st, alookup sn db.stores = some st ∧ st.keyPath = none) :
    (restoreDb allOkDb name dumpStr s).1.env =
      aset s.env name
        { db with
          stores := updStores (storeItems (objFromList (getFields d))) db.stores
            ((objFromList (getFields d)).map Prod.fst) } ∧
    (restoreDb allOkDb name dumpStr s).2 = true := by
  have hprobed : probedDb s.env name = db := by simp [probedDb, hdb]
  have hmiss : ((objFromList (getFields d)).map Prod.fst).filter
      (fun n => (alookup n (probedDb s.env name).stores).isNone) = [] := by
    rw [hprobed, List.filter_eq_nil_iff]
    intro sn hsn
    obtain ⟨st, hst, -⟩ := hex sn hsn
    simp [hst]
  rw [restoreDb_noDrift_eq allOkDb name dumpStr s d hp rfl rfl hmiss]
  refine ⟨?_, rfl⟩
  rw [hprobed]
  unfold writePhase
  rw [writePhase_closed name (objFromList (getFields d))
    ((objFromList (getFields d)).map Prod.fst) _ db
    (alookup_aset_eq _ _ _) hex]
  show aset (aset s.env name db) name _ = _
  rw [aset_aset]

/-- C6, amended: when every store named in the dump already exists in the
destination with *no* key path — so writes use the dump's explicit keys —
a second identical restore of that database (with every open succeeding
and no forced transaction failures) leaves the structured-store state
exactly as the first left it. (With a key-path/auto-increment store the
claim fails, as the counterexample shows: each restore injects fresh
generated keys.) -/
theorem claim6_idem_keyPath_none (name dumpStr : List Char)
    (s : EngineState) (d : Json) (hp : parse dumpStr = some d) (db : IDB_DB)
    (hdb : alookup name s.env = some db)
    (hex : ∀ sn ∈ (objFromList (getFields d)).map Prod.fst,
      ∃ st, alookup sn db.stores = some st ∧ st.keyPath = none) :
    (restoreDb allOkDb name dumpStr s).2 = true ∧
    (restoreDb allOkDb name dumpStr
        { env := (restoreDb allOkDb name dumpStr s).1.env,
          nextCid := 0, trace := [] }).1.env =
      (restoreDb allOkDb name dumpStr s).1.env := by
  obtain ⟨henv1, hok1⟩ := restoreDb_closed name dumpStr s d hp db hdb hex
  refine ⟨hok1, ?_⟩
  have hex2 : ∀ sn ∈ (objFromList (getFields d)).map Prod.fst,
      ∃ st, alookup sn
        { db with
          stores := updStores (storeItems (objFromList (getFields d))) db.stores
            ((objFromList (getFields d)).map Prod.fst) }.stores = some st ∧
        st.keyPath = none := by
    intro sn hsn
    obtain ⟨st, hst, hkp⟩ := hex sn hsn
    obtain ⟨st2, hst2, hkp2⟩ := updStores_keyPath
      (storeItems (objFromList (getFields d)))
      ((objFromList (getFields d)).map Prod.fst) db.stores sn st hst
    exact ⟨st2, hst2, by rw [hkp2]; exact hkp⟩
  rw [henv1]
  obtain ⟨henv2, -⟩ := restoreDb_closed name dumpStr
    { env := aset s.env name
        { db with
          stores := updStores (storeItems (objFromList (getFields d))) db.stores
            ((objFromList (getFields d)).map Prod.fst) },
      nextCid := 0, trace := [] } d hp
    { db with
      stores := updStores (storeItems (objFromList (getFields d))) db.stores
        ((objFromList (getFields d)).map Prod.fst) }
    (alookup_aset_eq _ _ _) hex2
  rw [henv2, aset_aset,
    updStores_idem (storeItems (objFromList (getFields d)))
      (fun sn => objFromList_keys_nodup _)
      ((objFromList (getFields d)).map Prod.fst) db.stores
      (objFromList_keys_nodup (getFields d))
      (fun sn hsn => (hex sn hsn).imp (fun st hst => hst.1))]

/-- A destination that already has the dump's store `s` with no key
path. -/
def demoC6Dest : EngineState :=
  { env := [("d".toList,
      { version := 1, stores := [("s".toList, ObjStore.mk none false 1 [])] })],
    nextCid := 0, trace := [] }

/-- Witness for C6, amended: the C1 source store (no key path) already
present in the destination: restoring its own capture twice equals
restoring it once. -/
theorem claim6_idem_keyPath_none_witness :
    (restoreDb allOkDb "d".toList (captureDB
        { version := 1, stores := [("s".toList, c1SrcStore)] })
      demoC6Dest).2 = true ∧
    (restoreDb allOkDb "d".toList (captureDB
        { version := 1, stores := [("s".toList, c1SrcStore)] })
        { env := (restoreDb allOkDb "d".toList (captureDB
            { version := 1, stores := [("s".toList, c1SrcStore)] })
            demoC6Dest).1.env,
          nextCid := 0, trace := [] }).1.env =
      (restoreDb allOkDb "d".toList (captureDB
        { version := 1, stores := [("s".toList, c1SrcStore)] })
        demoC6Dest).1.env :=
  claim6_idem_keyPath_none "d".toList _ demoC6Dest
    (Json.obj [("s".toList, Json.obj [("k".toList,
      Json.str (stringify (Json.str "a".toList)))])])
    (by decide)
    { version := 1, stores := [("s".toList, ObjStore.mk none false 1 [])] }
    rfl (by decide)


/-! ## C5: a failing store does not disturb the rest of the attempt -/

/-- Two browser states that can differ only in database `n`'s store `s1`:
everything else looks the same. -/
def agreeExcept (n s1 : List Char) (e1 e2 : Env) : Prop :=
  (∀ n2, n2 ≠ n → alookup n2 e1 = alookup n2 e2) ∧
  ((alookup n e1).isSome ↔ (alookup n e2).isSome) ∧
  (∀ d1 d2, alookup n e1 = some d1 → alookup n e2 = some d2 →
    ∀ sn, sn ≠ s1 → alookup sn d1.stores = alookup sn d2.stores)

theorem agreeExcept_refl (n s1 : List Char) (e : Env) :
    agreeExcept n s1 e e := by
  refine ⟨fun _ _ => rfl, Iff.rfl, ?_⟩
  intro d1 d2 h1 h2 sn _
  rw [h1] at h2
  injection h2 with h3
  rw [h3]

/-- Processing the isolated store `s1` itself changes nothing visible
outside `s1`. -/
theorem processStore_self_frame (o : DbOracle) (n s1 : List Char)
    (items : List (List Char × Json)) (sA : EngineState) :
    (∀ n2, n2 ≠ n →
      alookup n2 (processStore o n s1 items sA).env = alookup n2 sA.env) ∧
    ((alookup n (processStore o n s1 items sA).env).isSome ↔
      (alookup n sA.env).isSome) ∧
    (∀ d d0, alookup n (processStore o n s1 items sA).env = some d →
      alookup n sA.env = some d0 →
      ∀ sn2, sn2 ≠ s1 → alookup sn2 d.stores = alookup sn2 d0.stores) := by
  unfold processStore
  split
  · exact ⟨fun _ _ => rfl, Iff.rfl, by
      intro d d0 h1 h2 sn2 _
      rw [h1] at h2
      injection h2 with h3
      rw [h3]⟩
  · rename_i db hdb
    split
    · exact ⟨fun _ _ => rfl, Iff.rfl, by
        intro d d0 h1 h2 sn2 _
        rw [h1] at h2
        injection h2 with h3
        rw [h3]⟩
    · rename_i st hst
      split
      · exact ⟨fun _ _ => rfl, Iff.rfl, by
          intro d d0 h1 h2 sn2 _
          rw [h1] at h2
          injection h2 with h3
          rw [h3]⟩
      · by_cases hr : (writeItems st items).2 = true <;>
          simp only [hr, if_true, Bool.false_eq_true, if_false] <;>
          refine ⟨?_, ?_, ?_⟩
        · intro n2 hne
          exact alookup_aset_ne _ _ _ _ hne
        · rw [alookup_aset_eq]
          simp [hdb]
        · intro d d0 h1 h2 sn2 hsn2
          rw [alookup_aset_eq] at h1
          rw [hdb] at h2
          injection h1 with h1b
          injection h2 with h2b
          rw [← h1b, ← h2b]
          exact alookup_aset_ne _ _ _ _ hsn2
        · intro n2 hne
          exact alookup_aset_ne _ _ _ _ hne
        · rw [alookup_aset_eq]
          simp [hdb]
        · intro d d0 h1 h2 sn2 hsn2
          rw [alookup_aset_eq] at h1
          rw [hdb] at h2
          injection h1 with h1b
          injection h2 with h2b
          rw [← h1b, ← h2b]
          exact alookup_aset_ne _ _ _ _ hsn2

/-- Composing `agreeExcept` with a one-sided `s1` step on each side. -/
theorem agreeExcept_step_self (n s1 : List Char) (o o2 : DbOracle)
    (items itemsB : List (List Char × Json)) (sA sB : EngineState)
    (h : agreeExcept n s1 sA.env sB.env) :
    agreeExcept n s1 (processStore o n s1 items sA).env
      (processStore o2 n s1 itemsB sB).env := by
  obtain ⟨hA1, hA2, hA3⟩ := processStore_self_frame o n s1 items sA
  obtain ⟨hB1, hB2, hB3⟩ := processStore_self_frame o2 n s1 itemsB sB
  refine ⟨?_, ?_, ?_⟩
  · intro n2 hne
    rw [hA1 n2 hne, hB1 n2 hne]
    exact h.1 n2 hne
  · rw [hA2, hB2]
    exact h.2.1
  · intro d1 d2 h1 h2 sn hsn
    cases hA0 : alookup n sA.env with
    | none =>
        exfalso
        have := hA2.mp (by rw [h1]; exact rfl)
        rw [hA0] at this
        exact Bool.noConfusion this
    | some d01 =>
        cases hB0 : alookup n sB.env with
        | none =>
            exfalso
            have := hB2.mp (by rw [h2]; exact rfl)
            rw [hB0] at this
            exact Bool.noConfusion this
        | some d02 =>
            rw [hA3 d1 d01 h1 hA0 sn hsn, hB3 d2 d02 h2 hB0 sn hsn]
            exact h.2.2 d01 d02 hA0 hB0 sn hsn

/-- Lock-step: processing any store other than `s1` with oracles that
agree there preserves the relation. -/
theorem agreeExcept_step_other (n s1 sn : List Char) (o o2 : DbOracle)
    (items : List (List Char × Json)) (sA sB : EngineState)
    (hsn : sn ≠ s1) (htxn : o.txnFail sn = o2.txnFail sn)
    (h : agreeExcept n s1 sA.env sB.env) :
    agreeExcept n s1 (processStore o n sn items sA).env
      (processStore o2 n sn items sB).env := by
  obtain ⟨h1, h2, h3⟩ := h
  cases hdbA : alookup n sA.env with
  | none =>
      have hdbB : alookup n sB.env = none := by
        cases hB : alookup n sB.env with
        | none => rfl
        | some dB =>
            exfalso
            have := h2.mpr (by rw [hB]; exact rfl)
            rw [hdbA] at this
            exact Bool.noConfusion this
      have hA : processStore o n sn items sA =
          { sA with trace := sA.trace ++ [Ev.storeError n sn] } := by
        simp [processStore, hdbA]
      have hB : processStore o2 n sn items sB =
          { sB with trace := sB.trace ++ [Ev.storeError n sn] } := by
        simp [processStore, hdbB]
      rw [hA, hB]
      exact ⟨h1, h2, h3⟩
  | some dA =>
      have hdbB : ∃ dB, alookup n sB.env = some dB := by
        cases hB : alookup n sB.env with
        | none =>
            exfalso
            have := h2.mp (by rw [hdbA]; exact rfl)
            rw [hB] at this
            exact Bool.noConfusion this
        | some dB => exact ⟨dB, rfl⟩
      obtain ⟨dB, hdbB⟩ := hdbB
      have hstores : alookup sn dA.stores = alookup sn dB.stores :=
        h3 dA dB hdbA hdbB sn hsn
      cases hstA : alookup sn dA.stores with
      | none =>
          have hstB : alookup sn dB.stores = none := by rw [← hstores, hstA]
          have hA : processStore o n sn items sA =
              { sA with trace := sA.trace ++ [Ev.storeError n sn] } := by
            simp [processStore, hdbA, hstA]
          have hB : processStore o2 n sn items sB =
              { sB with trace := sB.trace ++ [Ev.storeError n sn] } := by
            simp [processStore, hdbB, hstB]
          rw [hA, hB]
          exact ⟨h1, h2, h3⟩
      | some st =>
          have hstB : alookup sn dB.stores = some st := by rw [← hstores, hstA]
          cases htf : o.txnFail sn with
          | true =>
              have htf2 : o2.txnFail sn = true := by rw [← htxn, htf]
              have hA : processStore o n sn items sA =
                  { sA with trace := sA.trace ++ [Ev.storeError n sn] } := by
                simp [processStore, hdbA, hstA, htf]
              have hB : processStore o2 n sn items sB =
                  { sB with trace := sB.trace ++ [Ev.storeError n sn] } := by
                simp [processStore, hdbB, hstB, htf2]
              rw [hA, hB]
              exact ⟨h1, h2, h3⟩
          | false =>
              have htf2 : o2.txnFail sn = false := by rw [← htxn, htf]
              have hA : (processStore o n sn items sA).env =
                  aset sA.env n
                    { dA with stores := aset dA.stores sn (writeItems st items).1 } := by
                by_cases hr : (writeItems st items).2 = true <;>
                  simp [processStore, hdbA, hstA, htf, hr]
              have hB : (processStore o2 n sn items sB).env =
                  aset sB.env n
                    { dB with stores := aset dB.stores sn (writeItems st items).1 } := by
                by_cases hr : (writeItems st items).2 = true <;>
                  simp [processStore, hdbB, hstB, htf2, hr]
              rw [hA, hB]
              refine ⟨?_, ?_, ?_⟩
              · intro n2 hne
                rw [alookup_aset_ne _ _ _ _ hne, alookup_aset_ne _ _ _ _ hne]
                exact h1 n2 hne
              · rw [alookup_aset_eq, alookup_aset_eq]
                exact Iff.rfl
              · intro d1 d2 hd1 hd2 sn2 hsn2
                rw [alookup_aset_eq] at hd1 hd2
                injection hd1 with hd1b
                injection hd2 with hd2b
                rw [← hd1b, ← hd2b]
                by_cases he : sn2 = sn
                · subst he
                  rw [alookup_aset_eq, alookup_aset_eq]
                · rw [alookup_aset_ne _ _ _ _ he, alookup_aset_ne _ _ _ _ he]
                  exact h3 dA dB hdbA hdbB sn2 hsn2

theorem writePhase_agree (o o2 : DbOracle) (n s1 : List Char)
    (dbFields : List (List Char × Json))
    (hagree : ∀ sn, sn ≠ s1 → o.txnFail sn = o2.txnFail sn) :
    ∀ (names : List (List Char)) (sA sB : EngineState),
      agreeExcept n s1 sA.env sB.env →
      agreeExcept n s1
        (names.foldl (fun s2 sn =>
          processStore o n sn (storeItems dbFields sn) s2) sA).env
        (names.foldl (fun s2 sn =>
          processStore o2 n sn (storeItems dbFields sn) s2) sB).env := by
  intro names
  induction names with
  | nil => intro sA sB h; exact h
  | cons sn rest ih =>
      intro sA sB h
      simp only [List.foldl_cons]
      apply ih
      by_cases hsn : sn = s1
      · subst hsn
        exact agreeExcept_step_self n sn o o2 _ _ sA sB h
      · exact agreeExcept_step_other n s1 sn o o2 _ sA sB hsn
          (hagree sn hsn) h

theorem processStore_env_frame (o : DbOracle) (n sn : List Char)
    (items : List (List Char × Json)) (s : EngineState) (n2 : List Char)
    (hne : n2 ≠ n) :
    alookup n2 (processStore o n sn items s).env = alookup n2 s.env := by
  unfold processStore
  split
  · rfl
  · split
    · rfl
    · split
      · rfl
      · rename_i db hdb st hst htf
        by_cases hr : (writeItems st items).2 = true <;>
          simp only [hr, if_true, Bool.false_eq_true, if_false] <;>
          exact alookup_aset_ne _ _ _ _ hne

theorem writePhase_env_frame (o : DbOracle) (n : List Char)
    (dbFields : List (List Char × Json)) (n2 : List Char) (hne : n2 ≠ n) :
    ∀ (names : List (List Char)) (s : EngineState),
      alookup n2 (names.foldl (fun s2 sn =>
        processStore o n sn (storeItems dbFields sn) s2) s).env =
        alookup n2 s.env := by
  intro names
  induction names with
  | nil => intro s; rfl
  | cons sn rest ih =>
      intro s
      simp only [List.foldl_cons]
      rw [ih (processStore o n sn (storeItems dbFields sn) s)]
      exact processStore_env_frame o n sn _ s n2 hne

theorem probePhase_oracle (o o2 : DbOracle) (name : List Char)
    (names : List (List Char)) (s : EngineState)
    (h : o.probeErr = o2.probeErr) :
    probePhase o name names s = probePhase o2 name names s := by
  unfold probePhase
  rw [h]

theorem versionPhase_oracle (o o2 : DbOracle) (name : List Char)
    (s : EngineState) (h : o.versionErr = o2.versionErr) :
    versionPhase o name s = versionPhase o2 name s := by
  unfold versionPhase
  rw [h]

theorem upgradeOpen_oracle (o o2 : DbOracle) (name : List Char) (rv : Nat)
    (names : List (List Char)) (s : EngineState)
    (h : o.mainOutcome = o2.mainOutcome) :
    upgradeOpen o name rv names s = upgradeOpen o2 name rv names s := by
  unfold upgradeOpen
  rw [h]

theorem plainOpen_oracle (o o2 : DbOracle) (name : List Char)
    (s : EngineState) (h : o.mainOutcome = o2.mainOutcome) :
    plainOpen o name s = plainOpen o2 name s := by
  unfold plainOpen
  rw [h]

/-- The success flag of one database's restore never depends on the
transaction-failure oracle: store failures are absorbed. -/
theorem restoreDb_ok_txn_independent (o o2 : DbOracle)
    (name dumpStr : List Char) (s : EngineState)
    (hpe : o.probeErr = o2.probeErr) (hve : o.versionErr = o2.versionErr)
    (hmo : o.mainOutcome = o2.mainOutcome) :
    (restoreDb o name dumpStr s).2 = (restoreDb o2 name dumpStr s).2 := by
  unfold restoreDb
  cases hp : parse dumpStr with
  | none => rfl
  | some d =>
      simp only []
      rw [probePhase_oracle o o2 name _ s hpe]
      rcases h1 : probePhase o2 name
          ((objFromList (getFields d)).map Prod.fst) s with ⟨s1, b⟩
      cases b with
      | false =>
          simp only [Bool.false_eq_true, if_false]
          rw [plainOpen_oracle o o2 name s1 hmo]
          rcases h2 : plainOpen o2 name s1 with ⟨s2, op⟩
          cases op with
          | false => rfl
          | true => rfl
      | true =>
          simp only [if_true]
          rw [versionPhase_oracle o o2 name s1 hve]
          rcases h2 : versionPhase o2 name s1 with ⟨s2, ver⟩
          rw [upgradeOpen_oracle o o2 name (ver + 1) _ s2 hmo]
          rcases h3 : upgradeOpen o2 name (ver + 1)
              ((objFromList (getFields d)).map Prod.fst) s2 with ⟨s3, op⟩
          cases op with
          | false => rfl
          | true => rfl

/-- C5: a failure confined to store `s1` is invisible to every other
store and database, is merely recorded, and never fails the attempt.
Oracles `o` and `o2` agree everywhere except possibly on whether store
`s1`'s transaction fails: (1) every other store of the database ends
identically; (2) the store loop leaves other databases untouched; (3) a
forced failure on a live store only appends a `storeError` record,
leaving storage as it was; (4) the restore's success flag is entirely
independent of transaction failures. -/
theorem claim5_store_isolation (o o2 : DbOracle) (n s1 : List Char)
    (dbFields : List (List Char × Json)) (s : EngineState)
    (hagree : ∀ sn, sn ≠ s1 → o.txnFail sn = o2.txnFail sn) :
    (∀ sn, sn ≠ s1 →
      lookupStore (writePhase o n dbFields s).env n sn =
        lookupStore (writePhase o2 n dbFields s).env n sn) ∧
    (∀ n2, n2 ≠ n →
      alookup n2 (writePhase o n dbFields s).env = alookup n2 s.env) ∧
    (∀ items st, lookupStore s.env n s1 = some st → o.txnFail s1 = true →
      processStore o n s1 items s =
        { s with trace := s.trace ++ [Ev.storeError n s1] }) ∧
    (∀ name dumpStr s2, o.probeErr = o2.probeErr →
      o.versionErr = o2.versionErr → o.mainOutcome = o2.mainOutcome →
      (restoreDb o name dumpStr s2).2 = (restoreDb o2 name dumpStr s2).2) := by
  refine ⟨?_, ?_, ?_, ?_⟩
  · intro sn hsn
    have h := writePhase_agree o o2 n s1 dbFields hagree
      (dbFields.map Prod.fst) s s (agreeExcept_refl n s1 s.env)
    obtain ⟨h1, h2, h3⟩ := h
    unfold writePhase
    cases hA : alookup n (((dbFields.map Prod.fst)).foldl (fun s2 sn =>
        processStore o n sn (storeItems dbFields sn) s2) s).env with
    | none =>
        have hB : alookup n (((dbFields.map Prod.fst)).foldl (fun s2 sn =>
            processStore o2 n sn (storeItems dbFields sn) s2) s).env = none := by
          cases hB2 : alookup n (((dbFields.map Prod.fst)).foldl (fun s2 sn =>
              processStore o2 n sn (storeItems dbFields sn) s2) s).env with
          | none => rfl
          | some dB =>
              exfalso
              have := h2.mpr (by rw [hB2]; exact rfl)
              rw [hA] at this
              exact Bool.noConfusion this
        simp only [lookupStore, hA, hB]
    | some dA =>
        have hB : ∃ dB, alookup n (((dbFields.map Prod.fst)).foldl (fun s2 sn =>
            processStore o2 n sn (storeItems dbFields sn) s2) s).env =
            some dB := by
          cases hB2 : alookup n (((dbFields.map Prod.fst)).foldl (fun s2 sn =>
              processStore o2 n sn (storeItems dbFields sn) s2) s).env with
          | none =>
              exfalso
              have := h2.mp (by rw [hA]; exact rfl)
              rw [hB2] at this
              exact Bool.noConfusion this
          | some dB => exact ⟨dB, rfl⟩
        obtain ⟨dB, hB⟩ := hB
        simp only [lookupStore, hA, hB]
        exact h3 dA dB hA hB sn hsn
  · intro n2 hne
    unfold writePhase
    exact writePhase_env_frame o n dbFields n2 hne (dbFields.map Prod.fst) s
  · intro items st hl htf
    cases hdb : alookup n s.env with
    | none =>
        exfalso
        simp only [lookupStore, hdb] at hl
        exact Option.noConfusion hl
    | some db =>
        simp only [lookupStore, hdb] at hl
        simp [processStore, hdb, hl, htf]
  · intro name dumpStr s2 hpe hve hmo
    exact restoreDb_ok_txn_independent o o2 name dumpStr s2 hpe hve hmo

/-- The C5 witness oracle: exactly store `s`'s transaction fails. -/
def failSDb : DbOracle :=
  { probeErr := false, versionErr := false, mainOutcome := OpenOutcome.ok,
    txnFail := fun sn => decide (sn = "s".toList) }

/-- A two-store destination database for the C5 witness. -/
def c5State : EngineState :=
  { env := [("d".toList,
      { version := 1, stores :=
          [("s".toList, ObjStore.mk none false 1 []),
           ("t".toList, ObjStore.mk none false 1 [])] })],
    nextCid := 0, trace := [] }

/-- The dump fields of the C5 witness: stores `s` and `t`, one entry
each. -/
def c5Fields : List (List Char × Json) :=
  [("s".toList, Json.obj [("a".toList, Json.str "x".toList)]),
   ("t".toList, Json.obj [("b".toList, Json.str "y".toList)])]

/-- Witness for C5: with store `s` forced to fail, store `t` of the same
database ends exactly as under the all-success oracle, and the restore's
success flag is unchanged. -/
theorem claim5_store_isolation_witness :
    lookupStore (writePhase failSDb "d".toList c5Fields c5State).env
        "d".toList "t".toList =
      lookupStore (writePhase allOkDb "d".toList c5Fields c5State).env
        "d".toList "t".toList ∧
    (restoreDb failSDb "d".toList demoDumpStr s0).2 =
      (restoreDb allOkDb "d".toList demoDumpStr s0).2 :=
  ⟨(claim5_store_isolation failSDb allOkDb "d".toList "s".toList c5Fields c5State
      (by intro sn hne; simp only [failSDb, allOkDb]; exact decide_eq_false hne)).1
     "t".toList (by decide),
   (claim5_store_isolation failSDb allOkDb "d".toList "s".toList c5Fields c5State
      (by intro sn hne; simp only [failSDb, allOkDb]; exact decide_eq_false hne)).2.2.2
     "d".toList demoDumpStr s0 rfl rfl rfl⟩


/-! ## C1: the round-trip that does hold — destinations whose stores are
already present with no key path -/

/-- Keys the capture/restore pipeline round-trips exactly: string keys. -/
def isStrKey : IKey → Bool
  | .str _ => true
  | .num _ => false

theorem objFromList_idem {β : Type} (l : List (List Char × β)) :
    objFromList (objFromList l) = objFromList l :=
  objFromList_nodup_eq (objFromList l) (objFromList_keys_nodup l)

theorem map_fst_map_pair {β γ : Type} (g : List Char × β → γ) :
    ∀ (l : List (List Char × β)),
      (l.map (fun p => (p.1, g p))).map Prod.fst = l.map Prod.fst := by
  intro l
  induction l with
  | nil => rfl
  | cons p rest ih => simp only [List.map_cons, ih]

theorem alookup_of_mem_nodup {β : Type} :
    ∀ (l : List (List Char × β)) (p : List Char × β),
      (l.map Prod.fst).Nodup → p ∈ l → alookup p.1 l = some p.2 := by
  intro l
  induction l with
  | nil => intro p _ hp; cases hp
  | cons q rest ih =>
      intro p hnd hp
      obtain ⟨k, v⟩ := p
      obtain ⟨qk, qv⟩ := q
      rw [List.map_cons, List.nodup_cons] at hnd
      rcases List.mem_cons.mp hp with he | hp2
      · injection he with he1 he2
        subst he1
        subst he2
        simp [alookup]
      · have hne : qk ≠ k := by
          intro he
          exact hnd.1 (he ▸ List.mem_map.mpr ⟨(k, v), hp2, rfl⟩)
        simp only [alookup, if_neg hne]
        exact ih (k, v) hnd.2 hp2

theorem klookup_append_single :
    ∀ (rs : List (IKey × Json)) (k k2 : IKey) (v : Json), k2 ≠ k →
      klookup k2 (rs ++ [(k, v)]) = klookup k2 rs := by
  intro rs
  induction rs with
  | nil => intro k k2 v h; simp [klookup, Ne.symm h]
  | cons p rest ih =>
      intro k k2 v h
      obtain ⟨k3, v3⟩ := p
      by_cases h3 : k3 = k2
      · simp [klookup, h3]
      · simp [klookup, h3, ih _ _ _ h]

/-- Upserting fresh, pairwise-distinct keys is a plain append. -/
theorem kvUpserts_fresh :
    ∀ (pairs : List (List Char × Json)) (rs : List (IKey × Json)),
      (∀ p ∈ pairs, klookup (IKey.str p.1) rs = none) →
      (pairs.map Prod.fst).Nodup →
      kvUpserts rs pairs =
        rs ++ pairs.map (fun p => (IKey.str p.1, decodeValue p.2)) := by
  intro pairs
  induction pairs with
  | nil => intro rs _ _; simp [kvUpserts]
  | cons p rest ih =>
      intro rs hfresh hnd
      obtain ⟨k, v⟩ := p
      rw [List.map_cons, List.nodup_cons] at hnd
      show kvUpserts (upsert rs (IKey.str k) (decodeValue v)) rest = _
      rw [upsert_of_klookup_none rs _ _ (hfresh (k, v) (List.mem_cons_self _ _))]
      have hfresh2 : ∀ q ∈ rest,
          klookup (IKey.str q.1) (rs ++ [(IKey.str k, decodeValue v)]) = none := by
        intro q hq
        have hne : IKey.str q.1 ≠ IKey.str k := by
          intro he
          injection he with he2
          exact hnd.1 (he2 ▸ List.mem_map.mpr ⟨q, hq, rfl⟩)
        rw [klookup_append_single rs _ _ _ hne]
        exact hfresh q (List.mem_cons_of_mem _ hq)
      rw [ih _ hfresh2 hnd.2]
      simp

theorem strKeys_nodup (rs : List (IKey × Json))
    (hknd : (rs.map Prod.fst).Nodup)
    (hkstr : ∀ k ∈ rs.map Prod.fst, isStrKey k = true) :
    (rs.map (fun r => keyProp r.1)).Nodup := by
  have he : rs.map (fun r => keyProp r.1) = (rs.map Prod.fst).map keyProp := by
    rw [List.map_map]
    rfl
  rw [he]
  refine List.Nodup.map_on ?_ hknd
  intro x hx y hy hxy
  have hxs := hkstr x hx
  have hys := hkstr y hy
  cases x with
  | num m => simp [isStrKey] at hxs
  | str sx =>
      cases y with
      | num m => simp [isStrKey] at hys
      | str sy =>
          simp only [keyProp] at hxy
          rw [hxy]

theorem map_fst_map_fn {α γ : Type} (f : α → List Char) (g : α → γ) :
    ∀ (l : List α), (l.map (fun r => (f r, g r))).map Prod.fst = l.map f := by
  intro l
  induction l with
  | nil => rfl
  | cons p rest ih => simp only [List.map_cons, ih]

theorem captureStoreFields_eq (st : ObjStore)
    (hknd : (st.records.map Prod.fst).Nodup)
    (hkstr : ∀ k ∈ st.records.map Prod.fst, isStrKey k = true) :
    captureStoreFields st =
      st.records.map (fun r => (keyProp r.1, Json.str (stringify r.2))) := by
  unfold captureStoreFields
  apply objFromList_nodup_eq
  rw [map_fst_map_fn (fun r => keyProp r.1)
    (fun r => Json.str (stringify r.2)) st.records]
  exact strKeys_nodup st.records hknd hkstr

/-- The capture of one string-keyed store, written into an empty
key-path-free store, restores the records exactly: every value decodes
back through `parse_stringify`. -/
theorem kvU_capture (st : ObjStore)
    (hknd : (st.records.map Prod.fst).Nodup)
    (hkstr : ∀ k ∈ st.records.map Prod.fst, isStrKey k = true) :
    kvUpserts [] (captureStoreFields st) = st.records := by
  rw [captureStoreFields_eq st hknd hkstr]
  rw [kvUpserts_fresh _ [] (fun p hp => rfl) (by
    rw [map_fst_map_fn (fun r => keyProp r.1)
      (fun r => Json.str (stringify r.2)) st.records]
    exact strKeys_nodup st.records hknd hkstr)]
  rw [List.nil_append, List.map_map]
  have hid : ∀ r ∈ st.records, ((fun p => (IKey.str p.1, decodeValue p.2)) ∘
      (fun r => (keyProp r.1, Json.str (stringify r.2)))) r = r := by
    intro r hr
    show (IKey.str (keyProp r.1), decodeValue (Json.str (stringify r.2))) = r
    have h1 : IKey.str (keyProp r.1) = r.1 := by
      have hs := hkstr r.1 (List.mem_map.mpr ⟨r, hr, rfl⟩)
      cases hrk : r.1 with
      | num m => rw [hrk] at hs; simp [isStrKey] at hs
      | str s2 => rfl
    have h2 : decodeValue (Json.str (stringify r.2)) = r.2 := by
      unfold decodeValue
      simp only [parse_stringify]
    rw [h1, h2]
  exact (List.map_congr_left hid).trans (List.map_id _)

theorem objFromList_captureStoreFields (st : ObjStore) :
    objFromList (captureStoreFields st) = captureStoreFields st := by
  unfold captureStoreFields
  rw [objFromList_idem]

theorem updStores_lookup (items : List Char → List (List Char × Json)) :
    ∀ (names : List (List Char)) (stores : List (List Char × ObjStore))
      (sn : List Char) (st : ObjStore), names.Nodup → sn ∈ names →
      alookup sn stores = some st →
      alookup sn (updStores items stores names) =
        some { st with records := kvUpserts st.records (items sn) } := by
  intro names
  induction names with
  | nil => intro stores sn st _ hmem _; cases hmem
  | cons n rest ih =>
      intro stores sn st hnd hmem hst
      rw [List.nodup_cons] at hnd
      rcases List.mem_cons.mp hmem with rfl | hmem2
      · have hstep : updStores items stores (sn :: rest) =
            updStores items (aset stores sn
              { st with records := kvUpserts st.records (items sn) }) rest := by
          show updStores items (match alookup sn stores with
            | some st3 =>
                aset stores sn
                  { st3 with records := kvUpserts st3.records (items sn) }
            | none => stores) rest = _
          rw [hst]
        rw [hstep, updStores_frame items rest _ sn hnd.1]
        exact alookup_aset_eq _ _ _
      · have hne : sn ≠ n := fun he => hnd.1 (he ▸ hmem2)
        cases hl : alookup n stores with
        | some stn =>
            have hstep : updStores items stores (n :: rest) =
                updStores items (aset stores n
                  { stn with records := kvUpserts stn.records (items n) }) rest := by
              show updStores items (match alookup n stores with
                | some st3 =>
                    aset stores n
                      { st3 with records := kvUpserts st3.records (items n) }
                | none => stores) rest = _
              rw [hl]
            rw [hstep]
            exact ih _ sn st hnd.2 hmem2
              (by rw [alookup_aset_ne _ _ _ _ hne]; exact hst)
        | none =>
            have hstep : updStores items stores (n :: rest) =
                updStores items stores rest := by
              show updStores items (match alookup n stores with
                | some st3 =>
                    aset stores n
                      { st3 with records := kvUpserts st3.records (items n) }
                | none => stores) rest = _
              rw [hl]
            rw [hstep]
            exact ih stores sn st hnd.2 hmem2 hst

/-- One database's restore of its own capture into a destination whose
stores are already present, key-path-free and empty: success, and every
source record list comes back exactly. -/
theorem restoreDb_roundtrip (name : List Char) (db : IDB_DB)
    (s : EngineState) (ddb : IDB_DB) (hddb : alookup name s.env = some ddb)
    (hstnd : (db.stores.map Prod.fst).Nodup)
    (hkeys : ∀ p ∈ db.stores, (p.2.records.map Prod.fst).Nodup ∧
      ∀ k ∈ p.2.records.map Prod.fst, isStrKey k = true)
    (hdest : ∀ p ∈ db.stores, ∃ st2, alookup p.1 ddb.stores = some st2 ∧
      st2.keyPath = none ∧ st2.records = []) :
    ∃ dbX, (restoreDb allOkDb name (captureDB db) s).1.env =
        aset s.env name dbX ∧
      (restoreDb allOkDb name (captureDB db) s).2 = true ∧
      ∀ p ∈ db.stores, ∃ stY, alookup p.1 dbX.stores = some stY ∧
        stY.records = p.2.records := by
  have hparse : parse (captureDB db) = some (Json.obj (objFromList
      (db.stores.map (fun q => (q.1, Json.obj (captureStoreFields q.2)))))) :=
    parse_stringify _
  have hF : objFromList (getFields (Json.obj (objFromList
      (db.stores.map (fun q => (q.1, Json.obj (captureStoreFields q.2))))))) =
      db.stores.map (fun q => (q.1, Json.obj (captureStoreFields q.2))) := by
    show objFromList (objFromList _) = _
    rw [objFromList_idem]
    apply objFromList_nodup_eq
    rw [map_fst_map_pair (fun q => Json.obj (captureStoreFields q.2))]
    exact hstnd
  have hex : ∀ sn ∈ (objFromList (getFields (Json.obj (objFromList
      (db.stores.map (fun q =>
        (q.1, Json.obj (captureStoreFields q.2)))))))).map Prod.fst,
      ∃ st, alookup sn ddb.stores = some st ∧ st.keyPath = none := by
    intro sn hsn
    rw [hF, map_fst_map_pair (fun q => Json.obj (captureStoreFields q.2))] at hsn
    obtain ⟨p, hp, rfl⟩ := List.mem_map.mp hsn
    obtain ⟨st2, h1, h2, -⟩ := hdest p hp
    exact ⟨st2, h1, h2⟩
  obtain ⟨henv, hok⟩ := restoreDb_closed name (captureDB db) s _ hparse ddb hddb hex
  refine ⟨_, henv, hok, ?_⟩
  intro p hp
  obtain ⟨st2, hst2, hkp2, hrec2⟩ := hdest p hp
  have hmem : p.1 ∈ (objFromList (getFields (Json.obj (objFromList
      (db.stores.map (fun q =>
        (q.1, Json.obj (captureStoreFields q.2)))))))).map Prod.fst := by
    rw [hF, map_fst_map_pair (fun q => Json.obj (captureStoreFields q.2))]
    exact List.mem_map.mpr ⟨p, hp, rfl⟩
  have hlk := updStores_lookup
    (storeItems (objFromList (getFields (Json.obj (objFromList
      (db.stores.map (fun q => (q.1, Json.obj (captureStoreFields q.2)))))))))
    ((objFromList (getFields (Json.obj (objFromList
      (db.stores.map (fun q =>
        (q.1, Json.obj (captureStoreFields q.2)))))))).map Prod.fst)
    ddb.stores p.1 st2 (objFromList_keys_nodup _) hmem hst2
  refine ⟨_, hlk, ?_⟩
  have hitems : storeItems (objFromList (getFields (Json.obj (objFromList
      (db.stores.map (fun q => (q.1, Json.obj (captureStoreFields q.2))))))))
      p.1 = captureStoreFields p.2 := by
    unfold storeItems
    rw [hF]
    have halk : alookup p.1 (db.stores.map (fun q =>
        (q.1, Json.obj (captureStoreFields q.2)))) =
        some (Json.obj (captureStoreFields p.2)) := by
      rw [alookup_map_snd (fun st => Json.obj (captureStoreFields st))
        db.stores p.1, alookup_of_mem_nodup db.stores p hstnd hp]
      rfl
    rw [halk]
    show objFromList (captureStoreFields p.2) = _
    exact objFromList_captureStoreFields p.2
  show ({ st2 with records := kvUpserts st2.records _ } : ObjStore).records =
    p.2.records
  rw [hitems] at hlk ⊢
  show kvUpserts st2.records (captureStoreFields p.2) = p.2.records
  rw [hrec2]
  exact kvU_capture p.2 (hkeys p hp).1 (hkeys p hp).2

/-- The database loop, run over the capture of a whole source browser
into a prepared destination: success, a frame over untouched names, and
exact restoration of every source store. -/
theorem restoreAll_roundtrip_aux :
    ∀ (l : List (List Char × IDB_DB)) (s : EngineState),
      (l.map Prod.fst).Nodup →
      (∀ q ∈ l, (q.2.stores.map Prod.fst).Nodup) →
      (∀ q ∈ l, ∀ p ∈ q.2.stores, (p.2.records.map Prod.fst).Nodup ∧
        ∀ k ∈ p.2.records.map Prod.fst, isStrKey k = true) →
      (∀ q ∈ l, ∃ ddb, alookup q.1 s.env = some ddb ∧
        ∀ p ∈ q.2.stores, ∃ st2, alookup p.1 ddb.stores = some st2 ∧
          st2.keyPath = none ∧ st2.records = []) →
      (restoreAll (fun _ => allOkDb)
          (l.map (fun q => (q.1, captureDB q.2))) s).2 = true ∧
      (∀ n2, n2 ∉ l.map Prod.fst →
        alookup n2 (restoreAll (fun _ => allOkDb)
          (l.map (fun q => (q.1, captureDB q.2))) s).1.env =
          alookup n2 s.env) ∧
      (∀ q ∈ l, ∀ p ∈ q.2.stores,
        storeRecords (restoreAll (fun _ => allOkDb)
          (l.map (fun q => (q.1, captureDB q.2))) s).1.env q.1 p.1 =
          some p.2.records) := by
  intro l
  induction l with
  | nil =>
      intro s _ _ _ _
      exact ⟨rfl, fun _ _ => rfl, fun q hq => absurd hq (List.not_mem_nil q)⟩
  | cons q0 rest ih =>
      intro s hnd hstnd hkeys hdest
      obtain ⟨n, db⟩ := q0
      rw [List.map_cons, List.nodup_cons] at hnd
      obtain ⟨ddb, hddb, hdest0⟩ := hdest (n, db) (List.mem_cons_self _ _)
      obtain ⟨dbX, henv, hok, hst⟩ := restoreDb_roundtrip n db s ddb hddb
        (hstnd (n, db) (List.mem_cons_self _ _))
        (hkeys (n, db) (List.mem_cons_self _ _)) hdest0
      simp only [List.map_cons, restoreAll]
      rcases hr : restoreDb allOkDb n (captureDB db) s with ⟨s2, b⟩
      rw [hr] at henv hok
      simp only at henv hok
      subst hok
      simp only []
      have hdest2 : ∀ q ∈ rest, ∃ ddb2, alookup q.1 s2.env = some ddb2 ∧
          ∀ p ∈ q.2.stores, ∃ st2, alookup p.1 ddb2.stores = some st2 ∧
            st2.keyPath = none ∧ st2.records = [] := by
        intro q hq
        obtain ⟨ddb2, hd2, hrest2⟩ := hdest q (List.mem_cons_of_mem _ hq)
        have hne : q.1 ≠ n := by
          intro he
          exact hnd.1 (he ▸ List.mem_map.mpr ⟨q, hq, rfl⟩)
        refine ⟨ddb2, ?_, hrest2⟩
        rw [henv, alookup_aset_ne _ _ _ _ hne]
        exact hd2
      obtain ⟨ihok, ihframe, ihst⟩ := ih s2 hnd.2
        (fun q hq => hstnd q (List.mem_cons_of_mem _ hq))
        (fun q hq => hkeys q (List.mem_cons_of_mem _ hq)) hdest2
      refine ⟨ihok, ?_, ?_⟩
      · intro n2 hn2
        have hn2n : n2 ≠ n := fun he => hn2 (he ▸ List.mem_cons_self _ _)
        have hn2rest : n2 ∉ rest.map Prod.fst :=
          fun hm => hn2 (List.mem_cons_of_mem _ hm)
        rw [ihframe n2 hn2rest, henv, alookup_aset_ne _ _ _ _ hn2n]
      · intro q hq p hp
        rcases List.mem_cons.mp hq with rfl | hq2
        · obtain ⟨stY, hstY, hrecY⟩ := hst p hp
          have h1 : alookup (n, db).1 (restoreAll (fun _ => allOkDb)
              (rest.map (fun q2 => (q2.1, captureDB q2.2))) s2).1.env =
              some dbX := by
            rw [ihframe (n, db).1 hnd.1, henv]
            exact alookup_aset_eq _ _ _
          simp [storeRecords, lookupStore, h1, hstY, hrecY]
        · exact ihst q hq2 p hp

/-- C1, amended: the round-trip does hold when the destination already
contains each captured database and store, with no key path and no
records — writes then use the dump's explicit string keys, and
`parse_stringify` gives each value back. For an *empty* destination the
claim is false (the counterexample): the upgrade path creates stores
with `keyPath: "id"`, so bare string values throw `DataError` and the
key set is lost. Source keys must be strings and names/keys duplicate
free (capture would collapse duplicates into one JS property anyway). -/
theorem claim1_roundtrip_prepared (src : Env) (s : EngineState)
    (hsrcnd : (src.map Prod.fst).Nodup)
    (hstnd : ∀ q ∈ src, (q.2.stores.map Prod.fst).Nodup)
    (hkeys : ∀ q ∈ src, ∀ p ∈ q.2.stores, (p.2.records.map Prod.fst).Nodup ∧
      ∀ k ∈ p.2.records.map Prod.fst, isStrKey k = true)
    (hdest : ∀ q ∈ src, ∃ ddb, alookup q.1 s.env = some ddb ∧
      ∀ p ∈ q.2.stores, ∃ st2, alookup p.1 ddb.stores = some st2 ∧
        st2.keyPath = none ∧ st2.records = []) :
    (restoreAll (fun _ => allOkDb) (createAuthIdbs src) s).2 = true ∧
    ∀ q ∈ src, ∀ p ∈ q.2.stores,
      storeRecords (restoreAll (fun _ => allOkDb) (createAuthIdbs src) s).1.env
        q.1 p.1 = some p.2.records := by
  have hc : createAuthIdbs src = src.map (fun q => (q.1, captureDB q.2)) := by
    unfold createAuthIdbs
    apply objFromList_nodup_eq
    rw [map_fst_map_pair (fun q => captureDB q.2)]
    exact hsrcnd
  rw [hc]
  obtain ⟨h1, h2, h3⟩ := restoreAll_roundtrip_aux src s hsrcnd hstnd hkeys hdest
  exact ⟨h1, h3⟩

/-- Witness for C1, amended: the C6 source database restored into the
prepared destination `demoC6Dest` round-trips its single record. -/
theorem claim1_roundtrip_prepared_witness :
    (restoreAll (fun _ => allOkDb) (createAuthIdbs c6SrcEnv) demoC6Dest).2 =
      true ∧
    storeRecords (restoreAll (fun _ => allOkDb) (createAuthIdbs c6SrcEnv)
        demoC6Dest).1.env "d".toList "s".toList =
      some [(IKey.str "k".toList, Json.obj [("x".toList, Json.num 1)])] :=
  ⟨(claim1_roundtrip_prepared c6SrcEnv demoC6Dest (by decide) (by decide)
      (by decide)
      (by
        intro q hq
        have hq2 : q = ("d".toList,
            { version := 1, stores := [("s".toList, c6SrcStore)] }) := by
          simpa [c6SrcEnv] using hq
        subst hq2
        refine ⟨_, rfl, ?_⟩
        intro p hp
        have hp2 : p = ("s".toList, c6SrcStore) := by
          simpa using hp
        subst hp2
        exact ⟨_, rfl, rfl, rfl⟩)).1,
   (claim1_roundtrip_prepared c6SrcEnv demoC6Dest (by decide) (by decide)
      (by decide)
      (by
        intro q hq
        have hq2 : q = ("d".toList,
            { version := 1, stores := [("s".toList, c6SrcStore)] }) := by
          simpa [c6SrcEnv] using hq
        subst hq2
        refine ⟨_, rfl, ?_⟩
        intro p hp
        have hp2 : p = ("s".toList, c6SrcStore) := by
          simpa using hp
        subst hp2
        exact ⟨_, rfl, rfl, rfl⟩)).2
     ("d".toList, { version := 1, stores := [("s".toList, c6SrcStore)] })
     (List.mem_cons_self _ _)
     ("s".toList, c6SrcStore) (List.mem_cons_self _ _)⟩


end PlaywrightAuth
